import Mathlib

/-!
Verification development for the free-style CSS-in-JS library.

The definitions below are a shallow embedding of `src/index.ts` (the current
generation of the library: `FreeStyle`, `Cache`, `Style`, `Rule`, `Selector`,
`stylize`, `compose`, `registerStyle`) and, in the `Old` namespace, of the
earlier generation (`src/Cache.ts` and its sibling node classes) that carries
the `getIdentifier` hash-collision check.

Modelling conventions:
* JS strings are Lean `String`s; the handful of regex-based helpers
  (`hyphenate`, `escape`, `interpolate`) are re-implemented character by
  character over `String.data`.
* `charCodeAt` is modelled by `Char.toNat`, which agrees with UTF-16 code
  units for all characters in the Basic Multilingual Plane (every string the
  library manipulates in the claims is ASCII).
* JS `Record` objects (`_children`, `_counters`) are association lists with
  set-or-append update; `_keys` and `sheet` are plain lists.  The operations
  below keep the association lists aligned with `_keys`, which the
  well-formedness predicate `WF` records.
* The mutable global counter `uniqueId` is threaded explicitly as a `Nat`.
* JS numbers that appear as CSS property values are modelled as `Int`
  (the library itself only distinguishes `typeof value === "number"`,
  truthiness and decimal printing).
-/

namespace FS

/-- Little-endian accumulation of base-36 digits, lowercase, as used by
JavaScript `Number.prototype.toString(36)` for natural numbers. -/
def digitChar36 (d : Nat) : Char :=
  if d < 10 then Char.ofNat (48 + d) else Char.ofNat (87 + d)

/-- Digit list of `n` in base 36 (most significant first), prepended to
`acc`.  The first argument is structural fuel: the digit loop runs at most
`log36 n + 1 ≤ fuel + 1` times when `n ≤ fuel`, so the fuel that
`toString36` passes is never exhausted. -/
def toDigits36 : Nat → Nat → List Char → List Char
  | 0, n, acc => digitChar36 (n % 36) :: acc
  | fuel + 1, n, acc =>
    if n < 36 then digitChar36 (n % 36) :: acc
    else toDigits36 fuel (n / 36) (digitChar36 (n % 36) :: acc)

/-- JavaScript `n.toString(36)` for a natural number `n`. -/
def toString36 (n : Nat) : String :=
  String.mk (toDigits36 n n [])

/-- One step of the DJB2-xor hash from `stringHash` in `src/index.ts`:
`value = (value * 33) ^ str.charCodeAt(len)` with JS 32-bit semantics,
tracked on the unsigned 32-bit representative. -/
def hashStep (value c : Nat) : Nat :=
  ((value * 33) % 4294967296) ^^^ c

/-- `stringHash` from `src/index.ts`: the loop walks the string from the last
character to the first, so we fold over the reversed character list; the
result is rendered via `(value >>> 0).toString(36)`. -/
def stringHash (str : String) : String :=
  toString36 (str.data.reverse.foldl (fun v c => hashStep v c.toNat) 5381)

/-- `escape` from `src/index.ts`: characters replaced by their
backslash-escaped form in CSS class names. -/
def escapeChars : List Char :=
  [' ', '!', '#', '$', '%', '&', '(', ')', '*', '+', ',', '.', '/', ';',
   '<', '=', '>', '?', '@', '[', ']', '^', '`', '\x7b', '|', '\x7d', '~',
   '"', '\'', '\\']

/-- `escape` from `src/index.ts`. -/
def escape (str : String) : String :=
  String.mk (str.data.flatMap fun ch =>
    if ch ∈ escapeChars then ['\\', ch] else [ch])

/-- `interpolate` from `src/index.ts`: replace every `&` with `styleName`. -/
def interpolate (selector styleName : String) : String :=
  String.mk (selector.data.flatMap fun ch =>
    if ch = '&' then styleName.data else [ch])

/-- `hyphenate` from `src/index.ts`: camelCase to hyphen-case plus the
Internet Explorer `ms-` fixup. -/
def hyphenate (propertyName : String) : String :=
  let r := propertyName.data.flatMap fun ch =>
    if ch.isUpper then ['-', ch.toLower] else [ch]
  match r with
  | 'm' :: 's' :: '-' :: rest => String.mk ('-' :: 'm' :: 's' :: '-' :: rest)
  | _ => String.mk r

/-- The unit-less property names of `CSS_NUMBER_KEYS` in `src/index.ts`. -/
def CSS_NUMBER_KEYS : List String :=
  ["animation-iteration-count", "border-image-outset", "border-image-slice",
   "border-image-width", "box-flex", "box-flex-group", "box-ordinal-group",
   "column-count", "columns", "counter-increment", "counter-reset", "flex",
   "flex-grow", "flex-positive", "flex-shrink", "flex-negative", "flex-order",
   "font-weight", "grid-area", "grid-column", "grid-column-end",
   "grid-column-span", "grid-column-start", "grid-row", "grid-row-end",
   "grid-row-span", "grid-row-start", "line-clamp", "line-height", "opacity",
   "order", "orphans", "tab-size", "widows", "z-index", "zoom",
   "fill-opacity", "flood-opacity", "stop-opacity", "stroke-dasharray",
   "stroke-dashoffset", "stroke-miterlimit", "stroke-opacity", "stroke-width"]

/-- The vendor markers iterated when populating `CSS_NUMBER`. -/
def vendorPres : List String :=
  ["-webkit-", "-ms-", "-moz-", "-o-", ""]

/-- The key set of the `CSS_NUMBER` lookup object: every vendor-marked
variant of every unit-less property. -/
def CSS_NUMBER : List String :=
  CSS_NUMBER_KEYS.flatMap fun property => vendorPres.map fun pre => pre ++ property

/-- A primitive CSS property value (`number | boolean | string`). -/
inductive SVal where
  | num (n : Int)
  | str (s : String)
  | bool (b : Bool)
deriving DecidableEq, Repr

/-- JS template interpolation `${value}` of a primitive property value. -/
def SVal.display : SVal → String
  | .num n => toString n
  | .str s => s
  | .bool b => if b then "true" else "false"

/-- Truthiness test `typeof value === "number" && value` from `styleToString`. -/
def SVal.truthyNum : SVal → Bool
  | .num n => n != 0
  | _ => false

/-- `styleToString` from `src/index.ts`: render one declaration, adding `px`
to truthy numbers whose property is not unit-less. -/
def styleToString (name : String) (value : SVal) : String :=
  let sfx := if value.truthyNum && !(CSS_NUMBER.contains name) then "px" else ""
  name ++ ":" ++ value.display ++ sfx

/-- A cache node of `src/index.ts`: `Selector` is the only non-cache
container; `Style`, `Rule` and `FreeStyle` all extend `Cache` and differ only
in their constructor payload and `getStyles` rendering, captured by
`CacheKind`.  The cache state mirrors the fields of `class Cache`:
`_keys`, `_children`, `_counters`, `sheet`, `changeId`.  `_children` and
`_counters` are JS `Record`s modelled as association lists; every operation
below keeps `children` aligned with `keys` (entry order and key set), which
`WF` records.  Change listeners (`changes`) are not modelled: the
`if (this.changes)` notification calls have no effect on cache state. -/
inductive CacheKind where
  | styleK (styleText : String)
  | ruleK (ruleText styleText : String)
  | sheetK
deriving DecidableEq, Repr

inductive Node : Type where
  | sel (selector id : String) : Node
  | cache (k : CacheKind) (id : String) (keys : List String)
      (children : List (String × Node)) (counters : List (String × Nat))
      (sheet : List String) (changeId : Nat) : Node

/-- Lookup in a JS `Record` modelled as an association list. -/
def lookupA {α : Type} : List (String × α) → String → Option α
  | [], _ => none
  | (k, v) :: rest, key => if k = key then some v else lookupA rest key

/-- `record[key] = v`: overwrite in place if present, append otherwise. -/
def setA {α : Type} : List (String × α) → String → α → List (String × α)
  | [], key, v => [(key, v)]
  | (k, w) :: rest, key, v =>
    if k = key then (k, v) :: rest else (k, w) :: setA rest key v

/-- `delete record[key]`. -/
def eraseA {α : Type} : List (String × α) → String → List (String × α)
  | [], _ => []
  | (k, w) :: rest, key => if k = key then rest else (k, w) :: eraseA rest key

/-- `join` from `src/index.ts` (fold-append of the sheet array). -/
def joinList (arr : List String) : String := arr.foldl (· ++ ·) ""

/-- The `id` property of a container. -/
def Node.id : Node → String
  | .sel _ i => i
  | .cache _ i _ _ _ _ _ => i

/-- `instanceof Cache`: true for `Style`, `Rule` and `FreeStyle` nodes. -/
def Node.isCache : Node → Bool
  | .sel _ _ => false
  | .cache _ _ _ _ _ _ _ => true

/-- The `changeId` counter (0 for the non-cache `Selector`). -/
def Node.changeId : Node → Nat
  | .sel _ _ => 0
  | .cache _ _ _ _ _ _ cid => cid

/-- The `_keys` array ([] for the non-cache `Selector`). -/
def Node.keyList : Node → List String
  | .sel _ _ => []
  | .cache _ _ keys _ _ _ _ => keys

/-- The `_children` record ([] for the non-cache `Selector`). -/
def Node.childrenList : Node → List (String × Node)
  | .sel _ _ => []
  | .cache _ _ _ ch _ _ _ => ch

/-- The `_counters` record ([] for the non-cache `Selector`). -/
def Node.countersList : Node → List (String × Nat)
  | .sel _ _ => []
  | .cache _ _ _ _ cnt _ _ => cnt

/-- The incremental `sheet` array ([] for the non-cache `Selector`). -/
def Node.sheetList : Node → List String
  | .sel _ _ => []
  | .cache _ _ _ _ _ sh _ => sh

/-- `getStyles` of each node class.  `Selector` returns its selector text;
`Style` renders `sheet.join(",")` followed by the braced style text;
`Rule` renders its rule header braced around the style text and the joined
sheet; `FreeStyle` renders the joined sheet.  None of them recurses: `sheet`
already holds the rendered children. -/
def Node.getStyles : Node → String
  | .sel s _ => s
  | .cache (.styleK sty) _ _ _ _ sheet _ =>
    String.intercalate "," sheet ++ "\x7b" ++ sty ++ "\x7d"
  | .cache (.ruleK r sty) _ _ _ _ sheet _ =>
    r ++ "\x7b" ++ sty ++ joinList sheet ++ "\x7d"
  | .cache .sheetK _ _ _ _ sheet _ => joinList sheet

/-- `values()`: `this._keys.map((key) => this._children[key]!)`.  Missing
keys (impossible on well-formed caches, see `WF`) are dropped. -/
def Node.valuesN (n : Node) : List Node :=
  n.keyList.filterMap (lookupA n.childrenList)

/-- Fresh (empty-cache) copy of a cache node, as built by the first half of
each `clone()` implementation: `new Style(this.style, this.id)`,
`new Rule(this.rule, this.style, this.id)`,
`new FreeStyle(this.id, this.changes)`. -/
def Node.emptyLike : Node → Node
  | .sel s i => .sel s i
  | .cache k i _ _ _ _ _ => .cache k i [] [] [] [] 0

mutual

/-- `Cache.add` from `src/index.ts`.  The stored `item` is the existing
child when present, otherwise `style.clone()`.  On a first add the item is
appended to `_keys`/`_children`/`sheet`; on a repeated add of a cache node
the incoming children are merged into the stored item and the sheet entry is
refreshed only when the nested merge advanced the item's `changeId`. -/
def Node.add (c : Node) (style : Node) : Node :=
  match c with
  | .sel s i => .sel s i
  | .cache k i keys ch cnt sh cid =>
    match style with
    | .sel ss si =>
      -- incoming `Selector`: `style.clone()` is `style` itself and the
      -- `instanceof Cache` merge branch can never be taken
      let count := (lookupA cnt si).getD 0
      let item := (lookupA ch si).getD (.sel ss si)
      let cnt' := setA cnt si (count + 1)
      if count = 0 then
        .cache k i (keys ++ [item.id]) (setA ch item.id item) cnt'
          (sh ++ [item.getStyles]) (cid + 1)
      else
        .cache k i keys ch cnt' sh cid
    | .cache ks is keyss chs cnts shs cids =>
      let style := Node.cache ks is keyss chs cnts shs cids
      let count := (lookupA cnt is).getD 0
      let item := match lookupA ch is with
        | some it => it
        | none => Node.cloneN (.cache ks is keyss chs cnts shs cids)
      let cnt' := setA cnt is (count + 1)
      if count = 0 then
        .cache k i (keys ++ [item.id]) (setA ch item.id item) cnt'
          (sh ++ [item.getStyles]) (cid + 1)
      -- `item instanceof Cache && style instanceof Cache` (style is one here)
      else if item.isCache then
        let prev := item.changeId
        let item' := Node.mergeChildren item chs
        let ch' := setA ch style.id item'
        if item'.changeId ≠ prev then
          let index := keys.indexOf style.id
          .cache k i keys ch' cnt' (sh.set index item'.getStyles) (cid + 1)
        else
          .cache k i keys ch' cnt' sh cid
      else
        .cache k i keys ch cnt' sh cid
termination_by (sizeOf style, 1)
decreasing_by all_goals (simp_wf; omega)

/-- `Cache.merge` iterates `cache.values()` in order and `add`s each one.
On well-formed caches `values()` is exactly the stored child of each key in
key order, i.e. the `_children` entries in storage order (the operations
keep the two aligned; see `WF`), so we recurse over the entry list itself. -/
def Node.mergeChildren (c : Node) : List (String × Node) → Node
  | [] => c
  | (_, v) :: rest => Node.mergeChildren (c.add v) rest
termination_by l => (sizeOf l, 0)
decreasing_by all_goals (simp_wf; omega)

/-- `clone()` of each node class.  `Selector.clone` returns itself; the
cache classes build a fresh empty node with the same constructor payload and
`merge(this)` into it. -/
def Node.cloneN (n : Node) : Node :=
  match n with
  | .sel s i => .sel s i
  | .cache k i keys ch cnt sh cid =>
    Node.mergeChildren ((Node.cache k i keys ch cnt sh cid).emptyLike) ch
termination_by (sizeOf n, 0)
decreasing_by all_goals (simp_wf; omega)

end

mutual

/-- `Cache.remove` from `src/index.ts`.  A no-op when the counter is absent
or zero; otherwise the counter is decremented, and either the entry is
deleted (count was 1) or, for cache nodes, the incoming children are
unmerged from the stored item.  The JS `_keys.indexOf`/`splice(-1)` corner
case for a missing key cannot occur on well-formed caches: the model uses
`List.indexOf`, which is a no-op index (`length`) when the key is absent. -/
def Node.remove (c : Node) (style : Node) : Node :=
  match c with
  | .sel s i => .sel s i
  | .cache k i keys ch cnt sh cid =>
    match style with
    | .sel _ si =>
      -- incoming `Selector`: the `instanceof Cache` branch can never fire
      match lookupA cnt si with
      | none => .cache k i keys ch cnt sh cid
      | some count =>
        if count = 0 then .cache k i keys ch cnt sh cid
        else
          match lookupA ch si with
          | none => .cache k i keys ch cnt sh cid
          | some item =>
            let cnt' := setA cnt si (count - 1)
            let index := keys.indexOf item.id
            if count = 1 then
              .cache k i (keys.eraseIdx index) (eraseA ch si)
                (eraseA cnt si) (sh.eraseIdx index) (cid + 1)
            else
              .cache k i keys ch cnt' sh cid
    | .cache _ is _ chs _ _ _ =>
      match lookupA cnt is with
      | none => .cache k i keys ch cnt sh cid
      | some count =>
        if count = 0 then .cache k i keys ch cnt sh cid
        else
          match lookupA ch is with
          | none => .cache k i keys ch cnt sh cid
          | some item =>
            let cnt' := setA cnt is (count - 1)
            let index := keys.indexOf item.id
            if count = 1 then
              .cache k i (keys.eraseIdx index) (eraseA ch is)
                (eraseA cnt is) (sh.eraseIdx index) (cid + 1)
            -- `item instanceof Cache && style instanceof Cache`
            else if item.isCache then
              let prev := item.changeId
              let item' := Node.unmergeChildren item chs
              let ch' := setA ch is item'
              if item'.changeId ≠ prev then
                .cache k i keys ch' cnt' (sh.set index item'.getStyles) (cid + 1)
              else
                .cache k i keys ch' cnt' sh cid
            else
              .cache k i keys ch cnt' sh cid
termination_by (sizeOf style, 1)
decreasing_by all_goals (simp_wf; omega)

/-- `Cache.unmerge` body: `remove` every stored child of the other cache in
order (see `Node.mergeChildren` for the `values()` representation). -/
def Node.unmergeChildren (c : Node) : List (String × Node) → Node
  | [] => c
  | (_, v) :: rest => Node.unmergeChildren (c.remove v) rest
termination_by l => (sizeOf l, 0)
decreasing_by all_goals (simp_wf; omega)

end

/-- `Cache.merge` (public entry point). -/
def Node.merge (c other : Node) : Node :=
  Node.mergeChildren c other.childrenList

/-- `Cache.unmerge` (public entry point). -/
def Node.unmerge (c other : Node) : Node :=
  Node.unmergeChildren c other.childrenList

mutual

/-- A value of the `Styles` input interface of `src/index.ts`: one property
of a styles object is a primitive value, an array of primitives,
`null`/`undefined`, or a nested styles object. -/
inductive SProp : Type where
  | val (v : SVal) : SProp
  | arr (vs : List SVal) : SProp
  | null : SProp
  | sub (s : SObj) : SProp

/-- A styles object.  The reserved `$unique`, `$global` and `$displayName`
members are carried as separate fields (the `key.charCodeAt(0) !== 36`
filter in `stylize` skips every `$`-prefixed key, so they never enter the
entry walk), and `entries` holds the remaining keys in insertion order. -/
inductive SObj : Type where
  | mk (unique glob : Bool) (displayName : Option String)
      (entries : List (String × SProp)) : SObj

end

/-- The `$unique` flag of a styles object. -/
def SObj.unique : SObj → Bool
  | .mk u _ _ _ => u

/-- The `$global` flag of a styles object. -/
def SObj.glob : SObj → Bool
  | .mk _ g _ _ => g

/-- The `$displayName` member of a styles object. -/
def SObj.displayName : SObj → Option String
  | .mk _ _ d _ => d

/-- The non-`$` keys of a styles object in insertion order. -/
def SObj.entries : SObj → List (String × SProp)
  | .mk _ _ _ es => es

/-- A property value after the partition in `stylize`: either a single
primitive or an array of primitives to expand. -/
inductive PropVal : Type where
  | one (v : SVal)
  | many (vs : List SVal)
deriving DecidableEq

/-- The entry walk at the top of `stylize`: skip `$`-keys and nulls, send
object values to `nestedStyles` and everything else, hyphenated, to
`properties`, both in insertion order. -/
def partitionStyles : List (String × SProp) →
    List (String × PropVal) × List (String × SObj)
  | [] => ([], [])
  | (k, v) :: rest =>
    let ps := (partitionStyles rest).1
    let ns := (partitionStyles rest).2
    if k.data.head? = some '$' then (ps, ns)
    else
      match v with
      | .null => (ps, ns)
      | .sub s => (ps, (k, s) :: ns)
      | .val x => ((hyphenate k, .one x) :: ps, ns)
      | .arr xs => ((hyphenate k, .many xs) :: ps, ns)

/-- Boolean lexicographic comparison of character lists.  It matches the
`List.lt` order underlying `String.lt` (`ltb_iff`), which agrees with the
JS `<`/`>` string comparison for Basic-Multilingual-Plane strings. -/
def ltb : List Char → List Char → Bool
  | [], [] => false
  | [], _ :: _ => true
  | _ :: _, [] => false
  | a :: as, b :: bs => if a < b then true else if b < a then false else ltb as bs

/-- `a ≤ b` on strings, decided by `ltb`. -/
def strLe (a b : String) : Bool := !(ltb b.data a.data)

/-- `ltb` decides the lexicographic order on character lists. -/
theorem ltb_iff : ∀ a b : List Char, ltb a b = true ↔ a < b := by
  intro a
  induction a with
  | nil =>
    intro b
    cases b with
    | nil =>
      simp only [ltb, Bool.false_eq_true, false_iff]
      intro h; nomatch h
    | cons b bs => simp only [ltb, true_iff]; exact List.Lex.nil
  | cons a as ih =>
    intro b
    cases b with
    | nil =>
      simp only [ltb, Bool.false_eq_true, false_iff]
      intro h; nomatch h
    | cons b bs =>
      simp only [ltb]
      split
      · simp only [true_iff]
        exact List.Lex.rel (by assumption)
      · split
        · simp only [Bool.false_eq_true, false_iff]
          intro h
          cases h with
          | cons h1 => exact absurd ‹a < a› (lt_irrefl a)
          | rel h1 => exact absurd h1 (by assumption)
        · have hab : a = b := by
            rcases lt_trichotomy a b with h | h | h
            · exact absurd h (by assumption)
            · exact h
            · exact absurd h (by assumption)
          subst hab
          rw [ih bs]
          constructor
          · intro h
            exact List.Lex.cons h
          · intro h
            cases h with
            | cons h1 => exact h1
            | rel h1 => exact absurd h1 (lt_irrefl a)

/-- `strLe` decides `≤` on strings. -/
theorem strLe_iff (a b : String) : strLe a b = true ↔ a ≤ b := by
  have hlt : (b < a) ↔ b.data < a.data := String.lt_iff_toList_lt
  constructor
  · intro h hlt2
    have h2 : ltb b.data a.data = true := (ltb_iff _ _).mpr (hlt.mp hlt2)
    rw [strLe, h2] at h
    exact absurd h (by decide)
  · intro h
    have h2 : ltb b.data a.data = false := by
      cases heq : ltb b.data a.data with
      | false => rfl
      | true => exact absurd (hlt.mpr ((ltb_iff _ _).mp heq)) h
    rw [strLe, h2]; rfl

/-- `sortTuples` from `src/index.ts`: sort by first component.  The JS
comparator `(a, b) => (a[0] > b[0] ? 1 : -1)` sorts ascending by the first
component; on distinct keys the result is the unique ascending reordering,
which is all the claims rely on.  (For duplicate keys the JS engine's order
under this never-zero comparator is implementation-defined; the model uses
insertion sort by `≤` on the key.) -/
def sortTuples {α : Type} (value : List (String × α)) : List (String × α) :=
  List.insertionSort (fun a b => strLe a.1 b.1 = true) value

/-- `stringifyProperties` from `src/index.ts`: arrays expand to one
declaration per element in array order; tuples are joined by `;`. -/
def stringifyProperties (properties : List (String × PropVal)) : String :=
  String.intercalate ";" (properties.map fun p =>
    match p.2 with
    | .one v => styleToString p.1 v
    | .many vs => String.intercalate ";" (vs.map (styleToString p.1)))

/-- `child` from `src/index.ts`: combine a nested selector key with its
parent selector (empty key keeps the parent; `&` interpolates; otherwise a
descendant combinator). -/
def child (selector parent : String) : String :=
  if selector = "" then parent
  else if !(selector.data.contains '&') then parent ++ " " ++ selector
  else interpolate selector parent

/-- The deferred leaf tuples recorded by `stylize` (type `StylizeStyle`). -/
structure StylizeStyle : Type where
  selector : String
  style : String
  isUnique : Bool
deriving DecidableEq

/-- The deferred at-rule scopes recorded by `stylize` (type `StylizeRule`). -/
inductive StylizeRule : Type where
  | mk (selector style : String) (rules : List StylizeRule)
      (styles : List StylizeStyle) : StylizeRule

/-- Permutations preserve the `sizeOf` of a list. -/
theorem perm_sizeOf_eq {α : Type} [SizeOf α] {l₁ l₂ : List α}
    (h : l₁.Perm l₂) : sizeOf l₁ = sizeOf l₂ := by
  induction h with
  | nil => rfl
  | cons x _ ih => simp [ih]
  | swap x y l => simp; omega
  | trans _ _ ih₁ ih₂ => omega

/-- Sorting a tuple list permutes it, hence preserves its `sizeOf`. -/
theorem sizeOf_sortTuples {α : Type} [SizeOf α] (l : List (String × α)) :
    sizeOf (sortTuples l) = sizeOf l :=
  perm_sizeOf_eq (List.perm_insertionSort _ l)

/-- The `const nested = parent ? nestedStyles : sortTuples(nestedStyles)`
line of `stylize`. -/
def nestedSel (parent : String) (nestedStyles : List (String × SObj)) :
    List (String × SObj) :=
  if parent ≠ "" then nestedStyles else sortTuples nestedStyles

/-- The nested output of the partition is no larger than its input. -/
theorem sizeOf_partition_nested (es : List (String × SProp)) :
    sizeOf (partitionStyles es).2 ≤ sizeOf es := by
  induction es with
  | nil => simp [partitionStyles]
  | cons hd tl ih =>
    obtain ⟨k, v⟩ := hd
    simp only [partitionStyles]
    split
    · simp; omega
    · cases v <;> simp [partitionStyles] <;> omega

/-- Bound used for the termination of `stylize`. -/
theorem sizeOf_nestedSel (p : String) (es : List (String × SProp)) :
    sizeOf (nestedSel p (partitionStyles es).2) ≤ sizeOf es := by
  unfold nestedSel
  split
  · exact sizeOf_partition_nested es
  · rw [sizeOf_sortTuples]; exact sizeOf_partition_nested es

mutual

/-- `stylize` from `src/index.ts`.  The JS function pushes into the two
accumulator arrays and returns the `pid` string; the model threads the
accumulators and returns all three. -/
def stylize (rulesList : List StylizeRule) (stylesList : List StylizeStyle)
    (key : String) (styles : SObj) (parentClassName : String) :
    List StylizeRule × List StylizeStyle × String :=
  match styles with
  | .mk uniq glob _ entries =>
    let properties := (partitionStyles entries).1
    let nestedStyles := (partitionStyles entries).2
    let isUnique := uniq
    let parent := if glob then "" else parentClassName
    let nested := nestedSel parent nestedStyles
    let style := stringifyProperties (sortTuples properties)
    if key.data.head? = some '@' then
      let start : List StylizeRule × List StylizeStyle × String :=
        if parent ≠ "" ∧ style ≠ "" then
          ([], [⟨parent, style, isUnique⟩], style ++ ":" ++ parent)
        else ([], [], style)
      let res := stylizeList start.1 start.2.1 nested parent start.2.2
      (rulesList ++ [.mk key (if parent ≠ "" then "" else style) res.1 res.2.1],
        stylesList, res.2.2)
    else
      let selector := if parent ≠ "" then child key parent else key
      let pid := style ++ ":" ++ selector
      let stylesList' :=
        if style ≠ "" then stylesList ++ [⟨selector, style, isUnique⟩]
        else stylesList
      stylizeList rulesList stylesList' nested selector pid
termination_by (sizeOf styles, 0)
decreasing_by
  all_goals simp_wf
  all_goals apply Prod.Lex.left
  all_goals refine lt_of_le_of_lt (sizeOf_nestedSel _ _) ?_
  all_goals omega

/-- The `for (const [name, value] of nested)` loop of `stylize`, threading
the accumulators and appending `":" + childPid` for every nested key. -/
def stylizeList (rulesList : List StylizeRule) (stylesList : List StylizeStyle) :
    List (String × SObj) → String → String →
    List StylizeRule × List StylizeStyle × String
  | [], _, pid => (rulesList, stylesList, pid)
  | (name, value) :: rest, parentCtx, pid =>
    let res := stylize rulesList stylesList name value parentCtx
    stylizeList res.1 res.2.1 rest parentCtx (pid ++ ":" ++ res.2.2)
termination_by l _ _ => (sizeOf l, 1)
decreasing_by
  all_goals simp_wf
  all_goals apply Prod.Lex.left
  all_goals omega

end

/-- Field accessors of `StylizeRule`. -/
def StylizeRule.selector : StylizeRule → String
  | .mk s _ _ _ => s

/-- Style payload of a `StylizeRule`. -/
def StylizeRule.style : StylizeRule → String
  | .mk _ s _ _ => s

/-- Nested rules of a `StylizeRule`. -/
def StylizeRule.rules : StylizeRule → List StylizeRule
  | .mk _ _ r _ => r

/-- Nested styles of a `StylizeRule`. -/
def StylizeRule.styles : StylizeRule → List StylizeStyle
  | .mk _ _ _ s => s

/-- The `for (const { selector, style, isUnique } of stylesList)` loop of
`compose` in `src/index.ts`: build each deferred `Style` node (unique styles
consume the global `uniqueId` counter, threaded here as `uid`), give it its
`Selector` child and `add` it to the target cache. -/
def composeStyles (cache : Node) (uid : Nat) :
    List StylizeStyle → String → String → Node × Nat
  | [], _, _ => (cache, uid)
  | st :: rest, id, name =>
    let skey := interpolate st.selector name
    let uid' := if st.isUnique then uid + 1 else uid
    let sid :=
      if st.isUnique then "s:" ++ toString36 (uid + 1) ++ ":" ++ st.style
      else "s:" ++ id ++ ":" ++ st.style
    let item := (Node.cache (.styleK st.style) sid [] [] [] [] 0).add
      (.sel skey ("k:" ++ skey))
    composeStyles (cache.add item) uid' rest id name

mutual

/-- `compose` from `src/index.ts`: materialise the deferred styles, then the
deferred rules (recursively composing each rule body). -/
def compose (cache : Node) (uid : Nat) (rulesList : List StylizeRule)
    (stylesList : List StylizeStyle) (id name : String) : Node × Nat :=
  let res := composeStyles cache uid stylesList id name
  composeRules res.1 res.2 rulesList id name
termination_by (sizeOf rulesList, 1)
decreasing_by
  apply Prod.Lex.right; omega

/-- The `for (const { selector, style, rules, styles } of rulesList)` loop
of `compose`. -/
def composeRules (cache : Node) (uid : Nat) :
    List StylizeRule → String → String → Node × Nat
  | [], _, _ => (cache, uid)
  | .mk sel sty rs ss :: rest, id, name =>
    let rkey := interpolate sel name
    let item0 : Node :=
      .cache (.ruleK rkey sty) ("r:" ++ id ++ ":" ++ rkey ++ ":" ++ sty) [] [] [] [] 0
    let res := compose item0 uid rs ss id name
    composeRules ((cache.add res.1)) res.2 rest id name
termination_by l _ _ => (sizeOf l, 0)
decreasing_by
  all_goals simp_wf
  · apply Prod.Lex.left; omega
  · apply Prod.Lex.left; omega

end

/-!
Kernel-executable mirrors.  The cache operations and the style compiler are
compiled by well-founded recursion, which the kernel cannot unfold, so
closed statements about concrete runs cannot be checked by `rfl`/`decide`
against them directly.  Each `...O` function below mirrors one of them with
structural fuel and returns `none` when the fuel runs out; the soundness
lemmas show that every `some` result equals the mirrored operation, so a
concrete run certified by `rfl` on the mirror transfers to the real one.
-/

mutual

/-- Fuelled mirror of `Node.add`. -/
def addO : Nat → Node → Node → Option Node
  | 0, _, _ => none
  | fuel + 1, c, style =>
    match c with
    | .sel s i => some (.sel s i)
    | .cache k i keys ch cnt sh cid =>
      match style with
      | .sel ss si =>
        let count := (lookupA cnt si).getD 0
        let item := (lookupA ch si).getD (.sel ss si)
        let cnt' := setA cnt si (count + 1)
        if count = 0 then
          some (.cache k i (keys ++ [item.id]) (setA ch item.id item) cnt'
            (sh ++ [item.getStyles]) (cid + 1))
        else
          some (.cache k i keys ch cnt' sh cid)
      | .cache ks is keyss chs cnts shs cids => do
        let count := (lookupA cnt is).getD 0
        let item ← match lookupA ch is with
          | some it => some it
          | none => cloneO fuel (.cache ks is keyss chs cnts shs cids)
        let cnt' := setA cnt is (count + 1)
        if count = 0 then
          some (.cache k i (keys ++ [item.id]) (setA ch item.id item) cnt'
            (sh ++ [item.getStyles]) (cid + 1))
        else if item.isCache then do
          let item' ← mergeChildrenO fuel item chs
          let ch' := setA ch is item'
          if item'.changeId ≠ item.changeId then
            some (.cache k i keys ch' cnt'
              (sh.set (keys.indexOf is) item'.getStyles) (cid + 1))
          else
            some (.cache k i keys ch' cnt' sh cid)
        else
          some (.cache k i keys ch cnt' sh cid)

/-- Fuelled mirror of `Node.mergeChildren`. -/
def mergeChildrenO : Nat → Node → List (String × Node) → Option Node
  | 0, _, _ => none
  | _ + 1, c, [] => some c
  | fuel + 1, c, (_, v) :: rest => do
    let c' ← addO fuel c v
    mergeChildrenO fuel c' rest

/-- Fuelled mirror of `Node.cloneN`. -/
def cloneO : Nat → Node → Option Node
  | 0, _ => none
  | _ + 1, .sel s i => some (.sel s i)
  | fuel + 1, .cache k i _ ch _ _ _ =>
    mergeChildrenO fuel (.cache k i [] [] [] [] 0) ch

end

/-- Every `some` result of the fuelled mirrors agrees with the mirrored
cache operation. -/
theorem addO_sound_all : ∀ fuel : Nat,
    (∀ c s r, addO fuel c s = some r → c.add s = r) ∧
    (∀ c l r, mergeChildrenO fuel c l = some r → Node.mergeChildren c l = r) ∧
    (∀ n r, cloneO fuel n = some r → n.cloneN = r) := by
  intro fuel
  induction fuel with
  | zero =>
    refine ⟨?_, ?_, ?_⟩ <;> intros <;> simp_all [addO, mergeChildrenO, cloneO]
  | succ fuel ih =>
    obtain ⟨iha, ihm, ihc⟩ := ih
    refine ⟨?_, ?_, ?_⟩
    · intro c s r h
      cases c with
      | sel cs ci => simp only [addO, Option.some.injEq] at h; simp [Node.add, ← h]
      | cache k i keys ch cnt sh cid =>
        cases s with
        | sel ss si =>
          simp only [addO] at h
          simp only [Node.add]
          split at h <;> simp_all [Node.id]
        | cache ks is keyss chs cnts shs cids =>
          simp only [addO] at h
          simp only [Node.add]
          cases hch : lookupA ch is with
          | some it =>
            simp only [hch, Option.bind_eq_bind, Option.some_bind] at h
            simp only [hch]
            split at h
            · simp_all
            · split at h
              · rw [Option.bind_eq_some] at h
                obtain ⟨item2, hitem2, h⟩ := h
                rw [ihm _ _ _ hitem2]
                split at h <;> simp_all [Node.id]
              · simp_all
          | none =>
            simp only [hch, Option.bind_eq_bind, Option.bind_eq_some] at h
            obtain ⟨item, hitem, h⟩ := h
            simp only [hch]
            rw [ihc _ _ hitem]
            split at h
            · simp_all
            · split at h
              · rw [Option.bind_eq_some] at h
                obtain ⟨item2, hitem2, h⟩ := h
                rw [ihm _ _ _ hitem2]
                split at h <;> simp_all [Node.id]
              · simp_all
    · intro c l r h
      cases l with
      | nil => simp only [mergeChildrenO, Option.some.injEq] at h; simp [Node.mergeChildren, ← h]
      | cons x rest =>
        obtain ⟨kk, v⟩ := x
        simp only [mergeChildrenO, Option.bind_eq_bind, Option.bind_eq_some] at h
        obtain ⟨c', hc', h⟩ := h
        simp only [Node.mergeChildren]
        rw [iha _ _ _ hc']
        exact ihm _ _ _ h
    · intro n r h
      cases n with
      | sel s i => simp only [cloneO, Option.some.injEq] at h; simp [Node.cloneN, ← h]
      | cache k i keys ch cnt sh cid =>
        simp only [cloneO] at h
        simp only [Node.cloneN, Node.emptyLike]
        exact ihm _ _ _ h

/-- Soundness of the `add` mirror. -/
theorem addO_sound {fuel : Nat} {c s r : Node} (h : addO fuel c s = some r) :
    c.add s = r := (addO_sound_all fuel).1 c s r h

/-- Soundness of the `merge` mirror (`Node.merge c other` iterates the
stored children of `other`). -/
theorem mergeChildrenO_sound {fuel : Nat} {c : Node} {l : List (String × Node)}
    {r : Node} (h : mergeChildrenO fuel c l = some r) :
    Node.mergeChildren c l = r := (addO_sound_all fuel).2.1 c l r h

mutual

/-- Fuelled mirror of `Node.remove`. -/
def removeO : Nat → Node → Node → Option Node
  | 0, _, _ => none
  | fuel + 1, c, style =>
    match c with
    | .sel s i => some (.sel s i)
    | .cache k i keys ch cnt sh cid =>
      match style with
      | .sel _ si =>
        match lookupA cnt si with
        | none => some (.cache k i keys ch cnt sh cid)
        | some count =>
          if count = 0 then some (.cache k i keys ch cnt sh cid)
          else
            match lookupA ch si with
            | none => some (.cache k i keys ch cnt sh cid)
            | some item =>
              if count = 1 then
                some (.cache k i (keys.eraseIdx (keys.indexOf item.id)) (eraseA ch si)
                  (eraseA cnt si) (sh.eraseIdx (keys.indexOf item.id)) (cid + 1))
              else
                some (.cache k i keys ch (setA cnt si (count - 1)) sh cid)
      | .cache _ is _ chs _ _ _ =>
        match lookupA cnt is with
        | none => some (.cache k i keys ch cnt sh cid)
        | some count =>
          if count = 0 then some (.cache k i keys ch cnt sh cid)
          else
            match lookupA ch is with
            | none => some (.cache k i keys ch cnt sh cid)
            | some item =>
              if count = 1 then
                some (.cache k i (keys.eraseIdx (keys.indexOf item.id)) (eraseA ch is)
                  (eraseA cnt is) (sh.eraseIdx (keys.indexOf item.id)) (cid + 1))
              else if item.isCache then do
                let item' ← unmergeChildrenO fuel item chs
                if item'.changeId ≠ item.changeId then
                  some (.cache k i keys (setA ch is item') (setA cnt is (count - 1))
                    (sh.set (keys.indexOf item.id) item'.getStyles) (cid + 1))
                else
                  some (.cache k i keys (setA ch is item') (setA cnt is (count - 1)) sh cid)
              else
                some (.cache k i keys ch (setA cnt is (count - 1)) sh cid)

/-- Fuelled mirror of `Node.unmergeChildren`. -/
def unmergeChildrenO : Nat → Node → List (String × Node) → Option Node
  | 0, _, _ => none
  | _ + 1, c, [] => some c
  | fuel + 1, c, (_, v) :: rest => do
    let c' ← removeO fuel c v
    unmergeChildrenO fuel c' rest

end

/-- Every `some` result of the remove mirrors agrees with the mirrored
operation. -/
theorem removeO_sound_all : ∀ fuel : Nat,
    (∀ c s r, removeO fuel c s = some r → c.remove s = r) ∧
    (∀ c l r, unmergeChildrenO fuel c l = some r → Node.unmergeChildren c l = r) := by
  intro fuel
  induction fuel with
  | zero =>
    refine ⟨?_, ?_⟩ <;> intros <;> simp_all [removeO, unmergeChildrenO]
  | succ fuel ih =>
    obtain ⟨ihr, ihu⟩ := ih
    refine ⟨?_, ?_⟩
    · intro c s r h
      cases c with
      | sel cs ci => simp only [removeO, Option.some.injEq] at h; simp [Node.remove, ← h]
      | cache k i keys ch cnt sh cid =>
        cases s with
        | sel ss si =>
          simp only [removeO] at h
          simp only [Node.remove]
          cases hcnt : lookupA cnt si with
          | none => simp_all
          | some count =>
            simp only [hcnt] at h ⊢
            split at h
            · simp_all
            · cases hch : lookupA ch si with
              | none => simp_all
              | some item =>
                simp only [hch] at h ⊢
                split at h <;> simp_all
        | cache ks is keyss chs cnts shs cids =>
          simp only [removeO] at h
          simp only [Node.remove]
          cases hcnt : lookupA cnt is with
          | none => simp_all
          | some count =>
            simp only [hcnt] at h ⊢
            split at h
            · simp_all
            · cases hch : lookupA ch is with
              | none => simp_all
              | some item =>
                simp only [hch] at h ⊢
                split at h
                · simp_all
                · split at h
                  · simp only [Option.bind_eq_bind, Option.bind_eq_some] at h
                    obtain ⟨item2, hitem2, h⟩ := h
                    rw [ihu _ _ _ hitem2]
                    split at h <;> simp_all
                  · simp_all
    · intro c l r h
      cases l with
      | nil =>
        simp only [unmergeChildrenO, Option.some.injEq] at h
        simp [Node.unmergeChildren, ← h]
      | cons x rest =>
        obtain ⟨kk, v⟩ := x
        simp only [unmergeChildrenO, Option.bind_eq_bind, Option.bind_eq_some] at h
        obtain ⟨c', hc', h⟩ := h
        simp only [Node.unmergeChildren]
        rw [ihr _ _ _ hc']
        exact ihu _ _ _ h

/-- Soundness of the `remove` mirror. -/
theorem removeO_sound {fuel : Nat} {c s r : Node} (h : removeO fuel c s = some r) :
    c.remove s = r := (removeO_sound_all fuel).1 c s r h

/-- Soundness of the `unmerge` mirror. -/
theorem unmergeChildrenO_sound {fuel : Nat} {c : Node} {l : List (String × Node)}
    {r : Node} (h : unmergeChildrenO fuel c l = some r) :
    Node.unmergeChildren c l = r := (removeO_sound_all fuel).2 c l r h

mutual

/-- Fuelled mirror of `stylize`. -/
def stylizeO : Nat → List StylizeRule → List StylizeStyle → String → SObj →
    String → Option (List StylizeRule × List StylizeStyle × String)
  | 0, _, _, _, _, _ => none
  | fuel + 1, rulesList, stylesList, key, styles, parentClassName =>
    match styles with
    | .mk uniq glob _ entries =>
      let properties := (partitionStyles entries).1
      let nestedStyles := (partitionStyles entries).2
      let isUnique := uniq
      let parent := if glob then "" else parentClassName
      let nested := nestedSel parent nestedStyles
      let style := stringifyProperties (sortTuples properties)
      if key.data.head? = some '@' then do
        let start : List StylizeRule × List StylizeStyle × String :=
          if parent ≠ "" ∧ style ≠ "" then
            ([], [⟨parent, style, isUnique⟩], style ++ ":" ++ parent)
          else ([], [], style)
        let res ← stylizeListO fuel start.1 start.2.1 nested parent start.2.2
        some (rulesList ++ [.mk key (if parent ≠ "" then "" else style) res.1 res.2.1],
          stylesList, res.2.2)
      else
        let selector := if parent ≠ "" then child key parent else key
        let pid := style ++ ":" ++ selector
        let stylesList' :=
          if style ≠ "" then stylesList ++ [⟨selector, style, isUnique⟩]
          else stylesList
        stylizeListO fuel rulesList stylesList' nested selector pid

/-- Fuelled mirror of `stylizeList`. -/
def stylizeListO : Nat → List StylizeRule → List StylizeStyle →
    List (String × SObj) → String → String →
    Option (List StylizeRule × List StylizeStyle × String)
  | 0, _, _, _, _, _ => none
  | _ + 1, rulesList, stylesList, [], _, pid => some (rulesList, stylesList, pid)
  | fuel + 1, rulesList, stylesList, (name, value) :: rest, parentCtx, pid => do
    let res ← stylizeO fuel rulesList stylesList name value parentCtx
    stylizeListO fuel res.1 res.2.1 rest parentCtx (pid ++ ":" ++ res.2.2)

end

/-- Every `some` result of the stylize mirrors agrees with the mirrored
function. -/
theorem stylizeO_sound_all : ∀ fuel : Nat,
    (∀ rl sl key styles p r, stylizeO fuel rl sl key styles p = some r →
      stylize rl sl key styles p = r) ∧
    (∀ rl sl l p pid r, stylizeListO fuel rl sl l p pid = some r →
      stylizeList rl sl l p pid = r) := by
  intro fuel
  induction fuel with
  | zero =>
    refine ⟨?_, ?_⟩ <;> intros <;> simp_all [stylizeO, stylizeListO]
  | succ fuel ih =>
    obtain ⟨ihs, ihl⟩ := ih
    refine ⟨?_, ?_⟩
    · intro rl sl key styles p r h
      cases styles with
      | mk uniq glob dn entries =>
        simp only [stylizeO] at h
        simp only [stylize]
        split at h
        case isTrue hat =>
          simp only [Option.bind_eq_bind, Option.bind_eq_some] at h
          obtain ⟨res, hres, h⟩ := h
          obtain ⟨r1, r2, r3⟩ := res
          rw [if_pos hat, ihl _ _ _ _ _ _ hres]
          exact Option.some.inj h
        case isFalse hat =>
          obtain ⟨r1, r2, r3⟩ := r
          rw [if_neg hat]
          exact ihl _ _ _ _ _ _ h
    · intro rl sl l p pid r h
      cases l with
      | nil => simp only [stylizeListO, Option.some.injEq] at h; simp [stylizeList, ← h]
      | cons x rest =>
        obtain ⟨name, value⟩ := x
        simp only [stylizeListO, Option.bind_eq_bind, Option.bind_eq_some] at h
        obtain ⟨res, hres, h⟩ := h
        obtain ⟨s1, s2, s3⟩ := res
        simp only [stylizeList]
        rw [ihs _ _ _ _ _ _ hres]
        obtain ⟨r1, r2, r3⟩ := r
        exact ihl _ _ _ _ _ _ h

/-- Soundness of the `stylize` mirror. -/
theorem stylizeO_sound {fuel : Nat} {rl : List StylizeRule}
    {sl : List StylizeStyle} {key p : String} {styles : SObj}
    {r : List StylizeRule × List StylizeStyle × String}
    (h : stylizeO fuel rl sl key styles p = some r) :
    stylize rl sl key styles p = r := (stylizeO_sound_all fuel).1 rl sl key styles p r h

/-- Fuelled mirror of `composeStyles`. -/
def composeStylesO : Nat → Node → Nat → List StylizeStyle → String → String →
    Option (Node × Nat)
  | 0, _, _, _, _, _ => none
  | _ + 1, cache, uid, [], _, _ => some (cache, uid)
  | fuel + 1, cache, uid, st :: rest, id, name => do
    let skey := interpolate st.selector name
    let uid' := if st.isUnique then uid + 1 else uid
    let sid :=
      if st.isUnique then "s:" ++ toString36 (uid + 1) ++ ":" ++ st.style
      else "s:" ++ id ++ ":" ++ st.style
    let item ← addO fuel (Node.cache (.styleK st.style) sid [] [] [] [] 0)
      (.sel skey ("k:" ++ skey))
    let c' ← addO fuel cache item
    composeStylesO fuel c' uid' rest id name

/-- Soundness of the `composeStyles` mirror. -/
theorem composeStylesO_sound : ∀ fuel : Nat, ∀ {cache : Node} {uid : Nat}
    {l : List StylizeStyle} {id name : String} {r : Node × Nat},
    composeStylesO fuel cache uid l id name = some r →
    composeStyles cache uid l id name = r := by
  intro fuel
  induction fuel with
  | zero => intros _ _ _ _ _ _ h; simp [composeStylesO] at h
  | succ fuel ih =>
    intro cache uid l id name r h
    cases l with
    | nil => simp only [composeStylesO, Option.some.injEq] at h; simp [composeStyles, ← h]
    | cons st rest =>
      simp only [composeStylesO, Option.bind_eq_bind, Option.bind_eq_some] at h
      obtain ⟨item, hitem, c', hc', h⟩ := h
      simp only [composeStyles]
      rw [addO_sound hitem, addO_sound hc']
      exact ih h

mutual

/-- Fuelled mirror of `compose`. -/
def composeO : Nat → Node → Nat → List StylizeRule → List StylizeStyle →
    String → String → Option (Node × Nat)
  | 0, _, _, _, _, _, _ => none
  | fuel + 1, cache, uid, rulesList, stylesList, id, name => do
    let res ← composeStylesO fuel cache uid stylesList id name
    composeRulesO fuel res.1 res.2 rulesList id name

/-- Fuelled mirror of `composeRules`. -/
def composeRulesO : Nat → Node → Nat → List StylizeRule → String → String →
    Option (Node × Nat)
  | 0, _, _, _, _, _ => none
  | _ + 1, cache, uid, [], _, _ => some (cache, uid)
  | fuel + 1, cache, uid, .mk sel sty rs ss :: rest, id, name => do
    let rkey := interpolate sel name
    let item0 : Node :=
      .cache (.ruleK rkey sty) ("r:" ++ id ++ ":" ++ rkey ++ ":" ++ sty) [] [] [] [] 0
    let res ← composeO fuel item0 uid rs ss id name
    let c' ← addO fuel cache res.1
    composeRulesO fuel c' res.2 rest id name

end

/-- Every `some` result of the compose mirrors agrees with the mirrored
function. -/
theorem composeO_sound_all : ∀ fuel : Nat,
    (∀ cache uid rl sl id name r, composeO fuel cache uid rl sl id name = some r →
      compose cache uid rl sl id name = r) ∧
    (∀ cache uid rl id name r, composeRulesO fuel cache uid rl id name = some r →
      composeRules cache uid rl id name = r) := by
  intro fuel
  induction fuel with
  | zero =>
    refine ⟨?_, ?_⟩ <;> intros <;> simp_all [composeO, composeRulesO]
  | succ fuel ih =>
    obtain ⟨ihc, ihr⟩ := ih
    refine ⟨?_, ?_⟩
    · intro cache uid rl sl id name r h
      simp only [composeO, Option.bind_eq_bind, Option.bind_eq_some] at h
      obtain ⟨res, hres, h⟩ := h
      simp only [compose]
      rw [composeStylesO_sound _ hres]
      exact ihr _ _ _ _ _ _ h
    · intro cache uid rl id name r h
      cases rl with
      | nil => simp only [composeRulesO, Option.some.injEq] at h; simp [composeRules, ← h]
      | cons x rest =>
        cases x with
        | mk sel sty rs ss =>
          simp only [composeRulesO, Option.bind_eq_bind, Option.bind_eq_some] at h
          obtain ⟨res, hres, c', hc', h⟩ := h
          simp only [composeRules]
          rw [ihc _ _ _ _ _ _ _ hres, addO_sound hc']
          exact ihr _ _ _ _ _ _ h

/-- Soundness of the `compose` mirror. -/
theorem composeO_sound {fuel : Nat} {cache : Node} {uid : Nat}
    {rl : List StylizeRule} {sl : List StylizeStyle} {id name : String}
    {r : Node × Nat} (h : composeO fuel cache uid rl sl id name = some r) :
    compose cache uid rl sl id name = r :=
  (composeO_sound_all fuel).1 cache uid rl sl id name r h

/-- Models `process.env.NODE_ENV !== "production"`: the development default
used by the library's own test environment. -/
def NODE_ENV_PRODUCTION : Bool := false

/-- `key` from `src/index.ts`: prepend the `$displayName` (when set and
non-empty, and not in production) to the hashed id. -/
def key (id : String) (styles : SObj) : String :=
  let dn := styles.displayName.getD ""
  if NODE_ENV_PRODUCTION || dn = "" then id else dn ++ "_" ++ id

/-- `FreeStyle.registerStyle` from `src/index.ts`, threading the global
`uniqueId` counter.  Returns the generated class name and the updated sheet
and counter. -/
def registerStyle (fs : Node) (uid : Nat) (css : SObj) : String × Node × Nat :=
  let res := stylize [] [] "" css ".&"
  let id := "f" ++ stringHash res.2.2
  let name := key id css
  let out := compose fs uid res.1 res.2.1 id
    (if NODE_ENV_PRODUCTION then name else escape name)
  (name, out.1, out.2)

/-- Fuelled mirror of `registerStyle`. -/
def registerStyleO (fuel : Nat) (fs : Node) (uid : Nat) (css : SObj) :
    Option (String × Node × Nat) := do
  let res ← stylizeO fuel [] [] "" css ".&"
  let id := "f" ++ stringHash res.2.2
  let name := key id css
  let out ← composeO fuel fs uid res.1 res.2.1 id
    (if NODE_ENV_PRODUCTION then name else escape name)
  some (name, out.1, out.2)

/-- Soundness of the `registerStyle` mirror. -/
theorem registerStyleO_sound {fuel : Nat} {fs : Node} {uid : Nat} {css : SObj}
    {r : String × Node × Nat} (h : registerStyleO fuel fs uid css = some r) :
    registerStyle fs uid css = r := by
  simp only [registerStyleO, Option.bind_eq_bind, Option.bind_eq_some] at h
  obtain ⟨res, hres, out, hout, h⟩ := h
  simp only [registerStyle]
  rw [stylizeO_sound hres, composeO_sound hout]
  exact Option.some.inj h

/-- `FreeStyle.registerHashRule` from `src/index.ts`. -/
def registerHashRule (fs : Node) (uid : Nat) (pre : String) (styles : SObj) :
    String × Node × Nat :=
  registerStyle fs uid (.mk false true styles.displayName [(pre ++ " &", .sub styles)])

/-- `FreeStyle.registerKeyframes` from `src/index.ts`. -/
def registerKeyframes (fs : Node) (uid : Nat) (keyframes : SObj) :
    String × Node × Nat :=
  registerHashRule fs uid "@keyframes" keyframes

/-- `FreeStyle.registerRule` from `src/index.ts`. -/
def registerRule (fs : Node) (uid : Nat) (rule : String) (styles : SObj) :
    String × Node × Nat :=
  registerStyle fs uid (.mk false true none [(rule, .sub styles)])

/-- `FreeStyle.registerCss` from `src/index.ts`. -/
def registerCss (fs : Node) (uid : Nat) (styles : SObj) : String × Node × Nat :=
  registerRule fs uid "" styles

/-- `create` from `src/index.ts`: a fresh `FreeStyle` instance whose id
consumes the global `uniqueId` counter. -/
def create (uid : Nat) : Node × Nat :=
  (.cache .sheetK ("f" ++ toString36 (uid + 1)) [] [] [] [] 0, uid + 1)

/-!
Association-list toolkit used by the well-formedness proofs.
-/

/-- A `none` lookup means the key is absent. -/
theorem lookupA_eq_none_iff {α : Type} {l : List (String × α)} {k : String} :
    lookupA l k = none ↔ k ∉ l.map Prod.fst := by
  induction l with
  | nil => simp [lookupA]
  | cons hd tl ih =>
    obtain ⟨hk, hv⟩ := hd
    simp only [lookupA, List.map_cons, List.mem_cons]
    split
    · simp_all
    · simp_all [eq_comm]

/-- A successful lookup returns a stored pair. -/
theorem lookupA_eq_some_mem {α : Type} {l : List (String × α)} {k : String}
    {v : α} (h : lookupA l k = some v) : (k, v) ∈ l := by
  induction l with
  | nil => simp [lookupA] at h
  | cons hd tl ih =>
    obtain ⟨hk, hv⟩ := hd
    simp only [lookupA] at h
    split at h
    · simp_all
    · simp [ih h]

/-- Setting an absent key appends the binding. -/
theorem setA_append {α : Type} {l : List (String × α)} {k : String} {v : α}
    (h : k ∉ l.map Prod.fst) : setA l k v = l ++ [(k, v)] := by
  induction l with
  | nil => rfl
  | cons hd tl ih =>
    obtain ⟨hk, hv⟩ := hd
    simp only [List.map_cons, List.mem_cons] at h
    push_neg at h
    simp only [setA, if_neg (by tauto : ¬ hk = k), List.cons_append]
    rw [ih h.2]

/-- Setting a key present at first-occurrence index `j` rewrites that
entry in place. -/
theorem setA_eq_set {α : Type} {l : List (String × α)} {k : String} {v : α}
    (h : k ∈ l.map Prod.fst) :
    setA l k v = l.set ((l.map Prod.fst).indexOf k) (k, v) := by
  induction l with
  | nil => simp at h
  | cons hd tl ih =>
    obtain ⟨hk, hv⟩ := hd
    by_cases heq : hk = k
    · subst heq
      simp [setA, List.indexOf_cons_self]
    · simp only [List.map_cons, List.mem_cons, eq_comm] at h
      rcases h with h | h
      · exact absurd h (by simpa [eq_comm] using heq)
      · simp only [setA, if_neg heq, List.map_cons]
        rw [List.indexOf_cons_ne _ (by simpa using heq), ih h]
        rfl

/-- Every entry of `setA l k v` is the new binding or an old entry. -/
theorem mem_setA {α : Type} {l : List (String × α)} {k : String} {v : α}
    {p : String × α} (h : p ∈ setA l k v) : p = (k, v) ∨ p ∈ l := by
  induction l with
  | nil => simp [setA] at h; simp [h]
  | cons hd tl ih =>
    obtain ⟨hk, hv⟩ := hd
    simp only [setA] at h
    split at h
    · rename_i heq
      subst heq
      rcases List.mem_cons.mp h with h | h
      · exact Or.inl h
      · exact Or.inr (List.mem_cons_of_mem _ h)
    · rcases List.mem_cons.mp h with h | h
      · exact Or.inr (by simp [h])
      · rcases ih h with h | h
        · exact Or.inl h
        · exact Or.inr (List.mem_cons_of_mem _ h)

/-- Erasing a key present at first-occurrence index `j` drops that entry. -/
theorem eraseA_eq_eraseIdx {α : Type} {l : List (String × α)} {k : String}
    (h : k ∈ l.map Prod.fst) :
    eraseA l k = l.eraseIdx ((l.map Prod.fst).indexOf k) := by
  induction l with
  | nil => simp at h
  | cons hd tl ih =>
    obtain ⟨hk, hv⟩ := hd
    by_cases heq : hk = k
    · subst heq
      simp [eraseA, List.indexOf_cons_self]
    · simp only [List.map_cons, List.mem_cons, eq_comm] at h
      rcases h with h | h
      · exact absurd h (by simpa [eq_comm] using heq)
      · simp only [eraseA, if_neg heq, List.map_cons]
        rw [List.indexOf_cons_ne _ (by simpa using heq), ih h]
        rfl

/-- Setting a key that is already bound leaves the key list unchanged. -/
theorem setA_map_fst_mem {α : Type} {l : List (String × α)} {k : String}
    {v : α} (h : k ∈ l.map Prod.fst) :
    (setA l k v).map Prod.fst = l.map Prod.fst := by
  induction l with
  | nil => simp at h
  | cons hd tl ih =>
    obtain ⟨hk, hv⟩ := hd
    by_cases heq : hk = k
    · subst heq
      simp [setA]
    · simp only [List.map_cons, List.mem_cons, eq_comm] at h
      rcases h with h | h
      · exact absurd h (by simpa [eq_comm] using heq)
      · simp [setA, if_neg heq, ih h]

/-- A stored key has a successful lookup. -/
theorem lookupA_isSome_of_mem {α : Type} {l : List (String × α)} {k : String}
    (h : k ∈ l.map Prod.fst) : ∃ v, lookupA l k = some v := by
  cases hl : lookupA l k with
  | none => exact absurd (lookupA_eq_none_iff.mp hl) (by simp [h])
  | some v => exact ⟨v, rfl⟩

/-- `map` commutes with `eraseIdx`. -/
theorem map_eraseIdx {α β : Type} (f : α → β) :
    ∀ (l : List α) (n : Nat), (l.eraseIdx n).map f = (l.map f).eraseIdx n := by
  intro l
  induction l with
  | nil => intro n; simp
  | cons hd tl ih =>
    intro n
    cases n with
    | zero => simp
    | succ m => simp [List.eraseIdx_cons_succ, ih]

/-!
Well-formedness of cache nodes, as maintained by the `index.ts` operations:
the key array, the children record and the counter record are aligned (same
keys, no duplicates), every stored child is keyed by its own `id` and is
itself well-formed, every reference count is positive, and the `sheet` array
caches exactly the rendered styles of the children in storage order.
-/

/-- The cache invariant of `src/index.ts` containers. -/
inductive WF : Node → Prop where
  | sel (s i : String) : WF (.sel s i)
  | cache {k : CacheKind} {i : String} {keys : List String}
      {ch : List (String × Node)} {cnt : List (String × Nat)}
      {sh : List String} {cid : Nat}
      (hkeys : ch.map Prod.fst = keys)
      (hcnt : cnt.map Prod.fst = keys)
      (hnd : keys.Nodup)
      (hid : ∀ p ∈ ch, Node.id p.2 = p.1)
      (hwf : ∀ p ∈ ch, WF p.2)
      (hpos : ∀ p ∈ cnt, 1 ≤ p.2)
      (hsh : sh = ch.map fun p => Node.getStyles p.2) :
      WF (.cache k i keys ch cnt sh cid)

/-- Freshly constructed caches (`create`, the `new ...` in each `clone`)
are well-formed. -/
theorem WF_empty (k : CacheKind) (i : String) (cid : Nat) :
    WF (.cache k i [] [] [] [] cid) :=
  WF.cache rfl rfl List.nodup_nil (by simp) (by simp) (by simp) rfl

/-- `add` never changes the receiver node's `id`. -/
theorem add_id (c s : Node) : (c.add s).id = c.id := by
  cases c with
  | sel cs ci => cases s <;> simp [Node.add]
  | cache k i keys ch cnt sh cid =>
    cases s with
    | sel ss si =>
      simp only [Node.add]
      split <;> rfl
    | cache ks is keyss chs cnts shs cids =>
      simp only [Node.add]
      split
      · rfl
      · split
        · split <;> rfl
        · rfl

/-- `merge` never changes the receiver node's `id`. -/
theorem mergeChildren_id (l : List (String × Node)) (c : Node) :
    (Node.mergeChildren c l).id = c.id := by
  induction l generalizing c with
  | nil => simp [Node.mergeChildren]
  | cons hd tl ih =>
    obtain ⟨hk, hv⟩ := hd
    rw [Node.mergeChildren, ih, add_id]

/-- `clone()` preserves the node's `id`. -/
theorem cloneN_id (n : Node) : n.cloneN.id = n.id := by
  cases n with
  | sel s i => simp [Node.cloneN]
  | cache k i keys ch cnt sh cid =>
    rw [Node.cloneN, mergeChildren_id]
    rfl

/-- `add` never decreases the receiver's `changeId`. -/
theorem add_changeId_mono (c s : Node) : c.changeId ≤ (c.add s).changeId := by
  cases c with
  | sel cs ci => cases s <;> simp [Node.add]
  | cache k i keys ch cnt sh cid =>
    cases s with
    | sel ss si =>
      simp only [Node.add]
      split <;> simp [Node.changeId]
    | cache ks is keyss chs cnts shs cids =>
      simp only [Node.add]
      split
      · simp [Node.changeId]
      · split
        · split <;> simp [Node.changeId]
        · simp [Node.changeId]

/-- `merge` never decreases the receiver's `changeId`. -/
theorem mergeChildren_changeId_mono (l : List (String × Node)) (c : Node) :
    c.changeId ≤ (Node.mergeChildren c l).changeId := by
  induction l generalizing c with
  | nil => simp [Node.mergeChildren]
  | cons hd tl ih =>
    obtain ⟨hk, hv⟩ := hd
    rw [Node.mergeChildren]
    exact le_trans (add_changeId_mono c hv) (ih _)

/-- An `add` that does not bump `changeId` leaves the rendered output and
the sheet untouched (only a reference count moved). -/
theorem add_cid_eq (c s : Node) (h : (c.add s).changeId = c.changeId) :
    (c.add s).getStyles = c.getStyles ∧ (c.add s).sheetList = c.sheetList := by
  cases c with
  | sel cs ci => cases s <;> simp [Node.add]
  | cache k i keys ch cnt sh cid =>
    cases s with
    | sel ss si =>
      simp only [Node.add] at h ⊢
      split_ifs at h ⊢ <;>
        first
          | exact ⟨by cases k <;> rfl, rfl⟩
          | (simp only [Node.changeId] at h; omega)
    | cache ks is keyss chs cnts shs cids =>
      simp only [Node.add] at h ⊢
      split_ifs at h ⊢ <;>
        first
          | exact ⟨by cases k <;> rfl, rfl⟩
          | (simp only [Node.changeId] at h; omega)

/-- A `merge` that does not bump `changeId` leaves the rendered output and
the sheet untouched. -/
theorem mergeChildren_cid_eq (l : List (String × Node)) (c : Node)
    (h : (Node.mergeChildren c l).changeId = c.changeId) :
    (Node.mergeChildren c l).getStyles = c.getStyles ∧
      (Node.mergeChildren c l).sheetList = c.sheetList := by
  induction l generalizing c with
  | nil => simp [Node.mergeChildren]
  | cons hd tl ih =>
    obtain ⟨hk, hv⟩ := hd
    rw [Node.mergeChildren] at h ⊢
    have h1 : (c.add hv).changeId = c.changeId :=
      le_antisymm (h ▸ mergeChildren_changeId_mono tl (c.add hv))
        (add_changeId_mono c hv)
    have h2 := add_cid_eq c hv h1
    have h3 := ih (c.add hv) (by omega)
    exact ⟨h3.1.trans h2.1, h3.2.trans h2.2⟩

/-- Appending an unseen element keeps a list duplicate-free. -/
theorem nodup_concat {α : Type} {l : List α} {a : α} (h : l.Nodup)
    (ha : a ∉ l) : (l ++ [a]).Nodup := by
  simp [List.nodup_append, h, ha]

/-- A successful lookup's key occurs in the key list. -/
theorem lookupA_mem_fst {α : Type} {l : List (String × α)} {k : String}
    {v : α} (h : lookupA l k = some v) : k ∈ l.map Prod.fst :=
  List.mem_map.mpr ⟨(k, v), lookupA_eq_some_mem h, rfl⟩

/-- On a counter record with positive counts, a zero `getD` means the key
is absent. -/
theorem lookupA_getD_zero {cnt : List (String × Nat)} {k : String}
    (hpos : ∀ p ∈ cnt, 1 ≤ p.2) (h : (lookupA cnt k).getD 0 = 0) :
    lookupA cnt k = none := by
  cases hl : lookupA cnt k with
  | none => rfl
  | some v =>
    have := hpos _ (lookupA_eq_some_mem hl)
    simp only [hl, Option.getD_some] at h
    omega

/-- A nonzero `getD` exposes the looked-up value. -/
theorem lookupA_getD_ne_zero {cnt : List (String × Nat)} {k : String}
    (h : (lookupA cnt k).getD 0 ≠ 0) :
    lookupA cnt k = some ((lookupA cnt k).getD 0) := by
  cases hl : lookupA cnt k with
  | none => simp [hl] at h
  | some v => simp

/-- `lookupA` finds the entry stored at the first index of its key. -/
theorem lookupA_indexOf {α : Type} :
    ∀ {l : List (String × α)} {k : String} {v : α}, lookupA l k = some v →
      ∃ hj : (l.map Prod.fst).indexOf k < l.length,
        l.get ⟨(l.map Prod.fst).indexOf k, hj⟩ = (k, v) := by
  intro l
  induction l with
  | nil => intro k v h; simp [lookupA] at h
  | cons hd tl ih =>
    intro k v h
    obtain ⟨hk, hv⟩ := hd
    simp only [lookupA] at h
    by_cases heq : hk = k
    · subst heq
      rw [if_pos rfl] at h
      have hv' : hv = v := by simpa using h
      subst hv'
      exact ⟨by simp [List.indexOf_cons_self], by simp [List.indexOf_cons_self]⟩
    · rw [if_neg heq] at h
      obtain ⟨hj, hg⟩ := ih h
      have hidx : ((hk, hv) :: tl).map Prod.fst = hk :: tl.map Prod.fst := rfl
      rw [hidx, List.indexOf_cons_ne _ (by simpa using heq)]
      exact ⟨by simpa using Nat.succ_lt_succ hj, by simpa using hg⟩

/-- Writing back the element already at an index is a no-op. -/
theorem set_get_self {α : Type} : ∀ (l : List α) (j : Nat) (hj : j < l.length),
    l.set j (l.get ⟨j, hj⟩) = l := by
  intro l
  induction l with
  | nil => intro j hj; simp at hj
  | cons hd tl ih =>
    intro j hj
    cases j with
    | zero => simp
    | succ m =>
      have := ih m (by simpa using hj)
      simpa using this


/-- `remove` never changes the receiver node's `id`. -/
theorem remove_id (c s : Node) : (c.remove s).id = c.id := by
  cases c with
  | sel cs ci => cases s <;> simp [Node.remove]
  | cache k i keys ch cnt sh cid =>
    cases s <;> (simp only [Node.remove]; repeat' split) <;> rfl

/-- `remove` never decreases the receiver's `changeId`. -/
theorem remove_changeId_mono (c s : Node) : c.changeId ≤ (c.remove s).changeId := by
  cases c with
  | sel cs ci => cases s <;> simp [Node.remove]
  | cache k i keys ch cnt sh cid =>
    cases s <;> (simp only [Node.remove]; repeat' split) <;> simp [Node.changeId]

/-- `unmerge` never changes the receiver node's `id`. -/
theorem unmergeChildren_id (l : List (String × Node)) (c : Node) :
    (Node.unmergeChildren c l).id = c.id := by
  induction l generalizing c with
  | nil => simp [Node.unmergeChildren]
  | cons hd tl ih =>
    obtain ⟨hk, hv⟩ := hd
    rw [Node.unmergeChildren, ih, remove_id]

/-- `unmerge` never decreases the receiver's `changeId`. -/
theorem unmergeChildren_changeId_mono (l : List (String × Node)) (c : Node) :
    c.changeId ≤ (Node.unmergeChildren c l).changeId := by
  induction l generalizing c with
  | nil => simp [Node.unmergeChildren]
  | cons hd tl ih =>
    obtain ⟨hk, hv⟩ := hd
    rw [Node.unmergeChildren]
    exact le_trans (remove_changeId_mono c hv) (ih _)

/-- A `remove` that does not bump `changeId` leaves the rendered output
and the sheet untouched. -/
theorem remove_cid_eq (c s : Node) (h : (c.remove s).changeId = c.changeId) :
    (c.remove s).getStyles = c.getStyles ∧ (c.remove s).sheetList = c.sheetList := by
  cases c with
  | sel cs ci => cases s <;> simp [Node.remove]
  | cache k i keys ch cnt sh cid =>
    cases s with
    | sel ss si =>
      simp only [Node.remove] at h ⊢
      cases hcnt : lookupA cnt si with
      | none =>
        simp only [hcnt] at h ⊢
        constructor <;> trivial
      | some count =>
        simp only [hcnt] at h ⊢
        by_cases h0 : count = 0
        · rw [if_pos h0] at h ⊢
          constructor <;> trivial
        · rw [if_neg h0] at h ⊢
          cases hch : lookupA ch si with
          | none =>
            simp only [hch] at h ⊢
            constructor <;> trivial
          | some item =>
            simp only [hch] at h ⊢
            by_cases h1 : count = 1
            · rw [if_pos h1] at h ⊢
              simp only [Node.changeId] at h
              omega
            · rw [if_neg h1] at h ⊢
              exact ⟨by cases k <;> rfl, rfl⟩
    | cache ks is keyss chs cnts shs cids =>
      simp only [Node.remove] at h ⊢
      cases hcnt : lookupA cnt is with
      | none =>
        simp only [hcnt] at h ⊢
        constructor <;> trivial
      | some count =>
        simp only [hcnt] at h ⊢
        by_cases h0 : count = 0
        · rw [if_pos h0] at h ⊢
          constructor <;> trivial
        · rw [if_neg h0] at h ⊢
          cases hch : lookupA ch is with
          | none =>
            simp only [hch] at h ⊢
            constructor <;> trivial
          | some item =>
            simp only [hch] at h ⊢
            by_cases h1 : count = 1
            · rw [if_pos h1] at h ⊢
              simp only [Node.changeId] at h
              omega
            · rw [if_neg h1] at h ⊢
              by_cases hic : item.isCache = true
              · rw [if_pos hic] at h ⊢
                by_cases hb :
                    (Node.unmergeChildren item chs).changeId ≠ item.changeId
                · rw [if_pos hb] at h ⊢
                  simp only [Node.changeId] at h
                  omega
                · rw [if_neg hb] at h ⊢
                  exact ⟨by cases k <;> rfl, rfl⟩
              · rw [if_neg hic] at h ⊢
                exact ⟨by cases k <;> rfl, rfl⟩

/-- An `unmerge` that does not bump `changeId` leaves the rendered output
and the sheet untouched. -/
theorem unmergeChildren_cid_eq (l : List (String × Node)) (c : Node)
    (h : (Node.unmergeChildren c l).changeId = c.changeId) :
    (Node.unmergeChildren c l).getStyles = c.getStyles ∧
      (Node.unmergeChildren c l).sheetList = c.sheetList := by
  induction l generalizing c with
  | nil => simp [Node.unmergeChildren]
  | cons hd tl ih =>
    obtain ⟨hk, hv⟩ := hd
    rw [Node.unmergeChildren] at h ⊢
    have h1 : (c.remove hv).changeId = c.changeId :=
      le_antisymm (h ▸ unmergeChildren_changeId_mono tl (c.remove hv))
        (remove_changeId_mono c hv)
    have h2 := remove_cid_eq c hv h1
    have h3 := ih (c.remove hv) (by omega)
    exact ⟨h3.1.trans h2.1, h3.2.trans h2.2⟩

/-- Overwriting an index of a mapped list with the image of the element
already stored there is a no-op. -/
theorem map_set_get_self {α β : Type} (f : α → β) {l : List α} {j : Nat}
    (hj : j < l.length) {b : β} (hb : f (l.get ⟨j, hj⟩) = b) :
    (l.map f).set j b = l.map f := by
  have hj' : j < (l.map f).length := by simpa using hj
  have h1 : (l.map f).get ⟨j, hj'⟩ = b := by
    simp only [List.get_eq_getElem, List.getElem_map]
    simpa using hb
  calc (l.map f).set j b = (l.map f).set j ((l.map f).get ⟨j, hj'⟩) := by rw [h1]
    _ = l.map f := set_get_self _ _ _

/-- Simultaneous preservation of `WF` by `clone`, `merge` and `add`, by
strong induction on a size measure that mirrors the mutual recursion of the
three operations. -/
theorem WF_ops (N : Nat) :
    (∀ n : Node, 3 * sizeOf n < N → WF n.cloneN) ∧
    (∀ (c : Node) (l : List (String × Node)), 3 * sizeOf l + 1 < N → WF c →
      WF (Node.mergeChildren c l)) ∧
    (∀ c s : Node, 3 * sizeOf s + 2 < N → WF c → WF (c.add s)) := by
  induction N using Nat.strong_induction_on with
  | _ N ih =>
    refine ⟨?_, ?_, ?_⟩
    · -- clone
      intro n hn
      cases n with
      | sel s i =>
        simp only [Node.cloneN]
        exact WF.sel s i
      | cache k i keys ch cnt sh cid =>
        rw [Node.cloneN]
        have hsz : sizeOf ch < sizeOf (Node.cache k i keys ch cnt sh cid) := by
          simp
          omega
        obtain ⟨-, hm, -⟩ := ih (N - 1) (by omega)
        exact hm _ ch (by omega) (WF_empty k i 0)
    · -- mergeChildren
      intro c l hl hc
      cases l with
      | nil =>
        rw [Node.mergeChildren]
        exact hc
      | cons hd tl =>
        obtain ⟨hk, hv⟩ := hd
        rw [Node.mergeChildren]
        have hsz1 : sizeOf hv < sizeOf ((hk, hv) :: tl) := by simp; omega
        have hsz2 : sizeOf tl < sizeOf ((hk, hv) :: tl) := by simp
        obtain ⟨-, hm, ha⟩ := ih (N - 1) (by omega)
        exact hm _ tl (by omega) (ha c hv (by omega) hc)
    · -- add
      intro c s hs hc
      cases hc with
      | sel cs ci =>
        cases s <;> (simp only [Node.add]; exact WF.sel cs ci)
      | cache hkeys hcnt hnd hid hwf hpos hsh =>
        rename_i k i keys ch cnt sh cid
        cases s with
        | sel ss si =>
          simp only [Node.add]
          by_cases h0 : (lookupA cnt si).getD 0 = 0
          · rw [if_pos h0]
            have hcn : lookupA cnt si = none := lookupA_getD_zero hpos h0
            have hsik : si ∉ keys := by
              intro hmem
              obtain ⟨v, hv⟩ := lookupA_isSome_of_mem (α := Nat)
                (l := cnt) (hcnt ▸ hmem)
              rw [hcn] at hv
              cases hv
            have hchn : lookupA ch si = none :=
              lookupA_eq_none_iff.mpr (by rw [hkeys]; exact hsik)
            simp only [hchn, hcn, Option.getD_none, Node.id]
            rw [setA_append (by rw [hkeys]; exact hsik),
              setA_append (by rw [hcnt]; exact hsik)]
            refine WF.cache ?_ ?_ (nodup_concat hnd hsik) ?_ ?_ ?_ ?_
            · simp [hkeys]
            · simp [hcnt]
            · intro p hp
              rcases List.mem_append.mp hp with hp | hp
              · exact hid p hp
              · rw [List.mem_singleton.mp hp]
                rfl
            · intro p hp
              rcases List.mem_append.mp hp with hp | hp
              · exact hwf p hp
              · rw [List.mem_singleton.mp hp]
                exact WF.sel ss si
            · intro p hp
              rcases List.mem_append.mp hp with hp | hp
              · exact hpos p hp
              · simp [List.mem_singleton.mp hp]
            · simp [hsh]
          · rw [if_neg h0]
            have hsm := lookupA_getD_ne_zero h0
            have hmemc : si ∈ cnt.map Prod.fst := lookupA_mem_fst hsm
            refine WF.cache hkeys ?_ hnd hid hwf ?_ hsh
            · rw [setA_map_fst_mem hmemc]
              exact hcnt
            · intro p hp
              rcases mem_setA hp with hp | hp
              · rw [hp]
                simp
              · exact hpos p hp
        | cache ks is keyss chs cnts shs cids =>
          simp only [Node.add]
          have hszchs :
              sizeOf chs < sizeOf (Node.cache ks is keyss chs cnts shs cids) := by
            simp
            omega
          by_cases h0 : (lookupA cnt is).getD 0 = 0
          · rw [if_pos h0]
            have hcn : lookupA cnt is = none := lookupA_getD_zero hpos h0
            have hisk : is ∉ keys := by
              intro hmem
              obtain ⟨v, hv⟩ := lookupA_isSome_of_mem (α := Nat)
                (l := cnt) (hcnt ▸ hmem)
              rw [hcn] at hv
              cases hv
            have hchn : lookupA ch is = none :=
              lookupA_eq_none_iff.mpr (by rw [hkeys]; exact hisk)
            simp only [hchn, hcn, Option.getD_none]
            obtain ⟨hclone, -, -⟩ := ih (N - 1) (by omega)
            have hwfc : WF ((Node.cache ks is keyss chs cnts shs cids).cloneN) :=
              hclone _ (by omega)
            have hcid : ((Node.cache ks is keyss chs cnts shs cids).cloneN).id = is := by
              rw [cloneN_id]
              rfl
            rw [hcid, setA_append (by rw [hkeys]; exact hisk),
              setA_append (by rw [hcnt]; exact hisk)]
            refine WF.cache ?_ ?_ (nodup_concat hnd hisk) ?_ ?_ ?_ ?_
            · simp [hkeys]
            · simp [hcnt]
            · intro p hp
              rcases List.mem_append.mp hp with hp | hp
              · exact hid p hp
              · rw [List.mem_singleton.mp hp]
                exact hcid
            · intro p hp
              rcases List.mem_append.mp hp with hp | hp
              · exact hwf p hp
              · rw [List.mem_singleton.mp hp]
                exact hwfc
            · intro p hp
              rcases List.mem_append.mp hp with hp | hp
              · exact hpos p hp
              · simp [List.mem_singleton.mp hp]
            · simp [hsh]
          · rw [if_neg h0]
            have hsm := lookupA_getD_ne_zero h0
            have hmemc : is ∈ cnt.map Prod.fst := lookupA_mem_fst hsm
            have hmemk : is ∈ keys := hcnt ▸ hmemc
            have hmemch : is ∈ ch.map Prod.fst := by rw [hkeys]; exact hmemk
            obtain ⟨item, hch⟩ := lookupA_isSome_of_mem hmemch
            simp only [hch]
            have hpmem := lookupA_eq_some_mem hch
            have hitem_id : item.id = is := hid _ hpmem
            have hitem_wf : WF item := hwf _ hpmem
            by_cases hic : item.isCache = true
            · rw [if_pos hic]
              obtain ⟨-, hm, -⟩ := ih (N - 1) (by omega)
              have hwfm : WF (Node.mergeChildren item chs) :=
                hm item chs (by omega) hitem_wf
              have hmid : (Node.mergeChildren item chs).id = is := by
                rw [mergeChildren_id]
                exact hitem_id
              simp only [Node.id]
              by_cases hb : (Node.mergeChildren item chs).changeId ≠ item.changeId
              · rw [if_pos hb]
                refine WF.cache ?_ ?_ hnd ?_ ?_ ?_ ?_
                · rw [setA_map_fst_mem hmemch]
                  exact hkeys
                · rw [setA_map_fst_mem hmemc]
                  exact hcnt
                · intro p hp
                  rcases mem_setA hp with hp | hp
                  · rw [hp]
                    exact hmid
                  · exact hid p hp
                · intro p hp
                  rcases mem_setA hp with hp | hp
                  · rw [hp]
                    exact hwfm
                  · exact hwf p hp
                · intro p hp
                  rcases mem_setA hp with hp | hp
                  · rw [hp]
                    simp
                  · exact hpos p hp
                · obtain ⟨hj, hget⟩ := lookupA_indexOf hch
                  rw [setA_eq_set hmemch, List.map_set, hkeys, ← hsh]
              · rw [if_neg hb]
                push_neg at hb
                have hkeep := mergeChildren_cid_eq chs item hb
                refine WF.cache ?_ ?_ hnd ?_ ?_ ?_ ?_
                · rw [setA_map_fst_mem hmemch]
                  exact hkeys
                · rw [setA_map_fst_mem hmemc]
                  exact hcnt
                · intro p hp
                  rcases mem_setA hp with hp | hp
                  · rw [hp]
                    exact hmid
                  · exact hid p hp
                · intro p hp
                  rcases mem_setA hp with hp | hp
                  · rw [hp]
                    exact hwfm
                  · exact hwf p hp
                · intro p hp
                  rcases mem_setA hp with hp | hp
                  · rw [hp]
                    simp
                  · exact hpos p hp
                · obtain ⟨hj, hget⟩ := lookupA_indexOf hch
                  rw [setA_eq_set hmemch, List.map_set, hsh]
                  refine (map_set_get_self _ hj ?_).symm
                  rw [hget]
                  exact hkeep.1.symm
            · rw [if_neg hic]
              refine WF.cache hkeys ?_ hnd hid hwf ?_ hsh
              · rw [setA_map_fst_mem hmemc]
                exact hcnt
              · intro p hp
                rcases mem_setA hp with hp | hp
                · rw [hp]
                  simp
                · exact hpos p hp

/-- Simultaneous preservation of `WF` by `unmerge` and `remove`. -/
theorem WF_rops (N : Nat) :
    (∀ (c : Node) (l : List (String × Node)), 2 * sizeOf l < N → WF c →
      WF (Node.unmergeChildren c l)) ∧
    (∀ c s : Node, 2 * sizeOf s + 1 < N → WF c → WF (c.remove s)) := by
  induction N using Nat.strong_induction_on with
  | _ N ih =>
    refine ⟨?_, ?_⟩
    · -- unmergeChildren
      intro c l hl hc
      cases l with
      | nil =>
        rw [Node.unmergeChildren]
        exact hc
      | cons hd tl =>
        obtain ⟨hk, hv⟩ := hd
        rw [Node.unmergeChildren]
        have hsz1 : sizeOf hv < sizeOf ((hk, hv) :: tl) := by simp; omega
        have hsz2 : sizeOf tl < sizeOf ((hk, hv) :: tl) := by simp
        obtain ⟨hu, hr⟩ := ih (N - 1) (by omega)
        exact hu _ tl (by omega) (hr c hv (by omega) hc)
    · -- remove
      intro c s hs hc
      cases hc with
      | sel cs ci =>
        cases s <;> (simp only [Node.remove]; exact WF.sel cs ci)
      | cache hkeys hcnt hnd hid hwf hpos hsh =>
        rename_i k i keys ch cnt sh cid
        cases s with
        | sel ss si =>
          simp only [Node.remove]
          cases hc0 : lookupA cnt si with
          | none =>
            simp only [hc0]
            exact WF.cache hkeys hcnt hnd hid hwf hpos hsh
          | some count =>
            simp only [hc0]
            by_cases h0 : count = 0
            · rw [if_pos h0]
              exact WF.cache hkeys hcnt hnd hid hwf hpos hsh
            · rw [if_neg h0]
              cases hch : lookupA ch si with
              | none =>
                simp only [hch]
                exact WF.cache hkeys hcnt hnd hid hwf hpos hsh
              | some item =>
                simp only [hch]
                have hpmem := lookupA_eq_some_mem hch
                have hitem_id : item.id = si := hid _ hpmem
                have hmemch : si ∈ ch.map Prod.fst := lookupA_mem_fst hch
                have hmemc : si ∈ cnt.map Prod.fst := lookupA_mem_fst hc0
                by_cases h1 : count = 1
                · rw [if_pos h1, hitem_id]
                  rw [eraseA_eq_eraseIdx hmemch, eraseA_eq_eraseIdx hmemc]
                  refine WF.cache ?_ ?_ ?_ ?_ ?_ ?_ ?_
                  · rw [map_eraseIdx, hkeys]
                  · rw [map_eraseIdx, hcnt]
                  · exact List.Nodup.sublist (List.eraseIdx_sublist _ _) hnd
                  · intro p hp
                    exact hid p ((List.eraseIdx_sublist _ _).subset hp)
                  · intro p hp
                    exact hwf p ((List.eraseIdx_sublist _ _).subset hp)
                  · intro p hp
                    exact hpos p ((List.eraseIdx_sublist _ _).subset hp)
                  · rw [hsh, map_eraseIdx, hkeys]
                · rw [if_neg h1]
                  have hcge : 1 ≤ count := hpos _ (lookupA_eq_some_mem hc0)
                  refine WF.cache hkeys ?_ hnd hid hwf ?_ hsh
                  · rw [setA_map_fst_mem hmemc]
                    exact hcnt
                  · intro p hp
                    rcases mem_setA hp with hp | hp
                    · rw [hp]
                      omega
                    · exact hpos p hp
        | cache ks is keyss chs cnts shs cids =>
          simp only [Node.remove]
          have hszchs :
              sizeOf chs < sizeOf (Node.cache ks is keyss chs cnts shs cids) := by
            simp
            omega
          cases hc0 : lookupA cnt is with
          | none =>
            simp only [hc0]
            exact WF.cache hkeys hcnt hnd hid hwf hpos hsh
          | some count =>
            simp only [hc0]
            by_cases h0 : count = 0
            · rw [if_pos h0]
              exact WF.cache hkeys hcnt hnd hid hwf hpos hsh
            · rw [if_neg h0]
              cases hch : lookupA ch is with
              | none =>
                simp only [hch]
                exact WF.cache hkeys hcnt hnd hid hwf hpos hsh
              | some item =>
                simp only [hch]
                have hpmem := lookupA_eq_some_mem hch
                have hitem_id : item.id = is := hid _ hpmem
                have hitem_wf : WF item := hwf _ hpmem
                have hmemch : is ∈ ch.map Prod.fst := lookupA_mem_fst hch
                have hmemc : is ∈ cnt.map Prod.fst := lookupA_mem_fst hc0
                by_cases h1 : count = 1
                · rw [if_pos h1, hitem_id]
                  rw [eraseA_eq_eraseIdx hmemch, eraseA_eq_eraseIdx hmemc]
                  refine WF.cache ?_ ?_ ?_ ?_ ?_ ?_ ?_
                  · rw [map_eraseIdx, hkeys]
                  · rw [map_eraseIdx, hcnt]
                  · exact List.Nodup.sublist (List.eraseIdx_sublist _ _) hnd
                  · intro p hp
                    exact hid p ((List.eraseIdx_sublist _ _).subset hp)
                  · intro p hp
                    exact hwf p ((List.eraseIdx_sublist _ _).subset hp)
                  · intro p hp
                    exact hpos p ((List.eraseIdx_sublist _ _).subset hp)
                  · rw [hsh, map_eraseIdx, hkeys]
                · rw [if_neg h1]
                  have hcge : 1 ≤ count := hpos _ (lookupA_eq_some_mem hc0)
                  by_cases hic : item.isCache = true
                  · rw [if_pos hic]
                    obtain ⟨hu, -⟩ := ih (N - 1) (by omega)
                    have hwfu : WF (Node.unmergeChildren item chs) :=
                      hu item chs (by omega) hitem_wf
                    have huid : (Node.unmergeChildren item chs).id = is := by
                      rw [unmergeChildren_id]
                      exact hitem_id
                    by_cases hb :
                        (Node.unmergeChildren item chs).changeId ≠ item.changeId
                    · rw [if_pos hb, hitem_id]
                      refine WF.cache ?_ ?_ hnd ?_ ?_ ?_ ?_
                      · rw [setA_map_fst_mem hmemch]
                        exact hkeys
                      · rw [setA_map_fst_mem hmemc]
                        exact hcnt
                      · intro p hp
                        rcases mem_setA hp with hp | hp
                        · rw [hp]
                          exact huid
                        · exact hid p hp
                      · intro p hp
                        rcases mem_setA hp with hp | hp
                        · rw [hp]
                          exact hwfu
                        · exact hwf p hp
                      · intro p hp
                        rcases mem_setA hp with hp | hp
                        · rw [hp]
                          omega
                        · exact hpos p hp
                      · obtain ⟨hj, hget⟩ := lookupA_indexOf hch
                        rw [setA_eq_set hmemch, List.map_set, hkeys, ← hsh]
                    · rw [if_neg hb]
                      push_neg at hb
                      have hkeep := unmergeChildren_cid_eq chs item hb
                      refine WF.cache ?_ ?_ hnd ?_ ?_ ?_ ?_
                      · rw [setA_map_fst_mem hmemch]
                        exact hkeys
                      · rw [setA_map_fst_mem hmemc]
                        exact hcnt
                      · intro p hp
                        rcases mem_setA hp with hp | hp
                        · rw [hp]
                          exact huid
                        · exact hid p hp
                      · intro p hp
                        rcases mem_setA hp with hp | hp
                        · rw [hp]
                          exact hwfu
                        · exact hwf p hp
                      · intro p hp
                        rcases mem_setA hp with hp | hp
                        · rw [hp]
                          omega
                        · exact hpos p hp
                      · obtain ⟨hj, hget⟩ := lookupA_indexOf hch
                        rw [setA_eq_set hmemch, List.map_set, hsh]
                        refine (map_set_get_self _ hj ?_).symm
                        rw [hget]
                        exact hkeep.1.symm
                  · rw [if_neg hic]
                    refine WF.cache hkeys ?_ hnd hid hwf ?_ hsh
                    · rw [setA_map_fst_mem hmemc]
                      exact hcnt
                    · intro p hp
                      rcases mem_setA hp with hp | hp
                      · rw [hp]
                        omega
                      · exact hpos p hp

/-- `Cache.add` preserves the cache invariant. -/
theorem add_WF {c : Node} (s : Node) (hc : WF c) : WF (c.add s) :=
  (WF_ops (3 * sizeOf s + 3)).2.2 c s (by omega) hc

/-- Every `clone()` result satisfies the cache invariant. -/
theorem cloneN_WF (n : Node) : WF n.cloneN :=
  (WF_ops (3 * sizeOf n + 1)).1 n (by omega)

/-- Merging a list of entries preserves the cache invariant. -/
theorem mergeChildren_WF {c : Node} (l : List (String × Node)) (hc : WF c) :
    WF (Node.mergeChildren c l) :=
  (WF_ops (3 * sizeOf l + 2)).2.1 c l (by omega) hc

/-- `Cache.merge` preserves the cache invariant. -/
theorem merge_WF {c : Node} (o : Node) (hc : WF c) : WF (c.merge o) :=
  mergeChildren_WF _ hc

/-- `Cache.remove` preserves the cache invariant. -/
theorem remove_WF {c : Node} (s : Node) (hc : WF c) : WF (c.remove s) :=
  (WF_rops (2 * sizeOf s + 2)).2 c s (by omega) hc

/-- Unmerging a list of entries preserves the cache invariant. -/
theorem unmergeChildren_WF {c : Node} (l : List (String × Node)) (hc : WF c) :
    WF (Node.unmergeChildren c l) :=
  (WF_rops (2 * sizeOf l + 1)).1 c l (by omega) hc

/-- `Cache.unmerge` preserves the cache invariant. -/
theorem unmerge_WF {c : Node} (o : Node) (hc : WF c) : WF (c.unmerge o) :=
  unmergeChildren_WF _ hc

/-- Looking every key of a duplicate-free record back up returns exactly
the stored values in storage order. -/
theorem filterMap_lookup_self {α : Type} :
    ∀ {ch : List (String × α)}, (ch.map Prod.fst).Nodup →
      (ch.map Prod.fst).filterMap (lookupA ch) = ch.map Prod.snd := by
  intro ch
  induction ch with
  | nil => intro h; rfl
  | cons hd tl ih =>
    intro hnd
    obtain ⟨hk, hv⟩ := hd
    simp only [List.map_cons] at hnd ⊢
    obtain ⟨hknotin, hndtl⟩ := List.nodup_cons.mp hnd
    rw [List.filterMap_cons]
    have h1 : lookupA ((hk, hv) :: tl) hk = some hv := by simp [lookupA]
    rw [h1]
    have h2 : (tl.map Prod.fst).filterMap (lookupA ((hk, hv) :: tl)) =
        (tl.map Prod.fst).filterMap (lookupA tl) := by
      refine List.filterMap_congr ?_
      intro x hx
      have hne : ¬ hk = x := fun he => hknotin (he ▸ hx)
      simp [lookupA, hne]
    rw [h2, ih hndtl]

/-- On a duplicate-free record, looking up the key stored at index `j`
returns the value stored at index `j`. -/
theorem lookupA_get_nodup {α : Type} :
    ∀ {ch : List (String × α)}, (ch.map Prod.fst).Nodup →
      ∀ (j : Nat) (hj : j < ch.length),
        lookupA ch (ch[j].1) = some (ch[j].2) := by
  intro ch
  induction ch with
  | nil => intro _ j hj; simp at hj
  | cons hd tl ih =>
    intro hnd j hj
    obtain ⟨hk, hv⟩ := hd
    simp only [List.map_cons] at hnd
    obtain ⟨hknotin, hndtl⟩ := List.nodup_cons.mp hnd
    cases j with
    | zero => simp [lookupA]
    | succ m =>
      have hm : m < tl.length := by simpa using hj
      have hmem : tl[m].1 ∈ tl.map Prod.fst :=
        List.mem_map.mpr ⟨tl[m], List.getElem_mem hm, rfl⟩
      have hne : ¬ hk = tl[m].1 := fun he => hknotin (he ▸ hmem)
      have h3 := ih hndtl m hm
      simpa [lookupA, hne] using h3

/-- On a well-formed cache, `values()` is exactly the stored children in
storage order. -/
theorem valuesN_eq {c : Node} (hc : WF c) :
    c.valuesN = c.childrenList.map Prod.snd := by
  cases hc with
  | sel s i => rfl
  | cache hkeys hcnt hnd hid hwf hpos hsh =>
    rename_i k i keys ch cnt sh cid
    show keys.filterMap (lookupA ch) = ch.map Prod.snd
    rw [← hkeys]
    exact filterMap_lookup_self (by rw [hkeys]; exact hnd)

/-- On a well-formed cache, the `sheet` array is the rendered styles of
`values()` in order. -/
theorem sheet_eq_values {c : Node} (hc : WF c) :
    c.sheetList = c.valuesN.map Node.getStyles := by
  rw [valuesN_eq hc]
  cases hc with
  | sel s i => rfl
  | cache hkeys hcnt hnd hid hwf hpos hsh =>
    rename_i k i keys ch cnt sh cid
    show sh = (ch.map Prod.snd).map Node.getStyles
    rw [hsh, List.map_map]
    rfl

/-- On a well-formed cache, `sheet` and `_keys` have the same length. -/
theorem sheet_length_eq {c : Node} (hc : WF c) :
    c.sheetList.length = c.keyList.length := by
  cases hc with
  | sel s i => rfl
  | cache hkeys hcnt hnd hid hwf hpos hsh =>
    rename_i k i keys ch cnt sh cid
    subst hkeys
    show sh.length = (ch.map Prod.fst).length
    rw [hsh]
    simp

/-- On a well-formed cache, `sheet[j]` is the rendered style of the child
stored at `_keys[j]`, for every index `j` (both sides are `none` past the
end). -/
theorem sheet_pointwise {c : Node} (hc : WF c) (j : Nat) :
    c.sheetList[j]? =
      (c.keyList[j]?.bind (lookupA c.childrenList)).map Node.getStyles := by
  cases hc with
  | sel s i => rfl
  | cache hkeys hcnt hnd hid hwf hpos hsh =>
    rename_i k i keys ch cnt sh cid
    subst hkeys
    show sh[j]? = (((ch.map Prod.fst)[j]?).bind (lookupA ch)).map Node.getStyles
    subst hsh
    by_cases hjc : j < ch.length
    · rw [List.getElem?_eq_getElem (by simpa using hjc),
        List.getElem?_eq_getElem (by simpa using hjc)]
      simp only [List.getElem_map, Option.some_bind]
      rw [lookupA_get_nodup hnd j hjc]
      rfl
    · rw [List.getElem?_eq_none (by simpa using Nat.le_of_not_lt hjc),
        List.getElem?_eq_none (by simpa using Nat.le_of_not_lt hjc)]
      rfl

/-- Lookup skips a prefix that does not contain the key. -/
theorem lookupA_append_of_notMem {α : Type} {l : List (String × α)}
    (e : List (String × α)) {k : String} (h : k ∉ l.map Prod.fst) :
    lookupA (l ++ e) k = lookupA e k := by
  induction l with
  | nil => rfl
  | cons hd tl ih =>
    obtain ⟨hk, hv⟩ := hd
    simp only [List.map_cons, List.mem_cons] at h
    push_neg at h
    simp only [List.cons_append, lookupA, if_neg (by tauto : ¬ hk = k)]
    exact ih h.2

/-- Deletion passes over a prefix that does not contain the key. -/
theorem eraseA_append_of_notMem {α : Type} {l : List (String × α)}
    (e : List (String × α)) {k : String} (h : k ∉ l.map Prod.fst) :
    eraseA (l ++ e) k = l ++ eraseA e k := by
  induction l with
  | nil => rfl
  | cons hd tl ih =>
    obtain ⟨hk, hv⟩ := hd
    simp only [List.map_cons, List.mem_cons] at h
    push_neg at h
    simp only [List.cons_append, eraseA, if_neg (by tauto : ¬ hk = k)]
    exact congrArg (List.cons (hk, hv)) (ih h.2)

/-- Overwriting passes over a prefix that does not contain the key. -/
theorem setA_append_of_notMem {α : Type} {l : List (String × α)}
    (e : List (String × α)) {k : String} {v : α} (h : k ∉ l.map Prod.fst) :
    setA (l ++ e) k v = l ++ setA e k v := by
  induction l with
  | nil => rfl
  | cons hd tl ih =>
    obtain ⟨hk, hv⟩ := hd
    simp only [List.map_cons, List.mem_cons] at h
    push_neg at h
    simp only [List.cons_append, setA, if_neg (by tauto : ¬ hk = k)]
    exact congrArg (List.cons (hk, hv)) (ih h.2)

/-- `indexOf` skips a prefix that does not contain the key. -/
theorem indexOf_append_of_notMem {l1 : List String} (l2 : List String)
    {k : String} (h : k ∉ l1) :
    (l1 ++ l2).indexOf k = l1.length + l2.indexOf k := by
  induction l1 with
  | nil => simp
  | cons hd tl ih =>
    simp only [List.mem_cons] at h
    push_neg at h
    simp only [List.cons_append, List.length_cons]
    rw [List.indexOf_cons_ne _ (by simpa using (Ne.symm h.1)), ih h.2]
    omega

/-- Erasing right after a prefix drops the head of the suffix. -/
theorem eraseIdx_append_middle {α : Type} :
    ∀ (l1 : List α) (l2 : List α), (l1 ++ l2).eraseIdx l1.length = l1 ++ l2.eraseIdx 0 := by
  intro l1 l2
  induction l1 with
  | nil => simp
  | cons hd tl ih => simp [List.eraseIdx_cons_succ, ih]

/-- Writing right after a prefix overwrites the head of the suffix. -/
theorem set_append_middle {α : Type} :
    ∀ (l1 : List α) (l2 : List α) (b : α),
      (l1 ++ l2).set l1.length b = l1 ++ l2.set 0 b := by
  intro l1 l2 b
  induction l1 with
  | nil => simp
  | cons hd tl ih => simp [List.set_cons_succ, ih]

/-- Merging into a `Selector` is a no-op (`add` ignores non-cache
receivers). -/
theorem mergeChildren_sel (s i : String) (l : List (String × Node)) :
    Node.mergeChildren (.sel s i) l = .sel s i := by
  induction l with
  | nil => rw [Node.mergeChildren]
  | cons hd tl ih =>
    obtain ⟨hk, hv⟩ := hd
    rw [Node.mergeChildren]
    have h1 : (Node.sel s i).add hv = .sel s i := by
      cases hv <;> simp [Node.add]
    rw [h1, ih]

/-- Unmerging from a `Selector` is a no-op. -/
theorem unmergeChildren_sel (s i : String) (l : List (String × Node)) :
    Node.unmergeChildren (.sel s i) l = .sel s i := by
  induction l with
  | nil => rw [Node.unmergeChildren]
  | cons hd tl ih =>
    obtain ⟨hk, hv⟩ := hd
    rw [Node.unmergeChildren]
    have h1 : (Node.sel s i).remove hv = .sel s i := by
      cases hv <;> simp [Node.remove]
    rw [h1, ih]

/-- Adding a node whose id is not yet stored appends a clone of it to
every parallel array and bumps `changeId`. -/
theorem add_fresh {k : CacheKind} {i : String} {keys : List String}
    {ch : List (String × Node)} {cnt : List (String × Nat)} {sh : List String}
    {cid : Nat} (s : Node) (hchf : s.id ∉ ch.map Prod.fst)
    (hcntf : s.id ∉ cnt.map Prod.fst) :
    (Node.cache k i keys ch cnt sh cid).add s =
      .cache k i (keys ++ [s.id]) (ch ++ [(s.id, s.cloneN)])
        (cnt ++ [(s.id, 1)]) (sh ++ [s.cloneN.getStyles]) (cid + 1) := by
  cases s with
  | sel ss si =>
    simp only [Node.id] at hchf hcntf ⊢
    have hcn : lookupA cnt si = none := lookupA_eq_none_iff.mpr hcntf
    have hchn : lookupA ch si = none := lookupA_eq_none_iff.mpr hchf
    simp only [Node.add, hcn, hchn, Option.getD_none, Node.id, Node.cloneN]
    rw [if_pos trivial, setA_append hchf, setA_append hcntf]
  | cache ks is keyss chs cnts shs cids =>
    simp only [Node.id] at hchf hcntf ⊢
    have hcn : lookupA cnt is = none := lookupA_eq_none_iff.mpr hcntf
    have hchn : lookupA ch is = none := lookupA_eq_none_iff.mpr hchf
    have hcid : ((Node.cache ks is keyss chs cnts shs cids).cloneN).id = is := by
      rw [cloneN_id]
      rfl
    simp only [Node.add, hcn, hchn, Option.getD_none]
    rw [if_pos trivial, hcid, setA_append hchf, setA_append hcntf]

/-- Merging a duplicate-free list of entries whose ids are all new to the
receiver appends their clones in order. -/
theorem mergeChildren_fresh :
    ∀ (l : List (String × Node)) (k : CacheKind) (i : String)
      (keys : List String) (ch : List (String × Node))
      (cnt : List (String × Nat)) (sh : List String) (cid : Nat),
      (∀ b ∈ l.map Prod.fst, b ∉ ch.map Prod.fst ∧ b ∉ cnt.map Prod.fst) →
      (l.map Prod.fst).Nodup →
      (∀ p ∈ l, Node.id p.2 = p.1) →
      Node.mergeChildren (.cache k i keys ch cnt sh cid) l =
        .cache k i (keys ++ l.map Prod.fst)
          (ch ++ l.map fun p => (p.1, Node.cloneN p.2))
          (cnt ++ l.map fun p => (p.1, 1))
          (sh ++ l.map fun p => (Node.cloneN p.2).getStyles)
          (cid + l.length) := by
  intro l
  induction l with
  | nil =>
    intro k i keys ch cnt sh cid hf hn hi
    rw [Node.mergeChildren]
    simp
  | cons hd tl ih =>
    intro k i keys ch cnt sh cid hfresh hnd hidl
    obtain ⟨b, bv⟩ := hd
    obtain ⟨hbch, hbcnt⟩ := hfresh b (by simp)
    have hbid : bv.id = b := hidl (b, bv) (by simp)
    have hnd2 : (b :: tl.map Prod.fst).Nodup := by
      simpa only [List.map_cons] using hnd
    obtain ⟨hbtl, hndtl⟩ := List.nodup_cons.mp hnd2
    have hadd : (Node.cache k i keys ch cnt sh cid).add bv =
        .cache k i (keys ++ [b]) (ch ++ [(b, bv.cloneN)]) (cnt ++ [(b, 1)])
          (sh ++ [bv.cloneN.getStyles]) (cid + 1) := by
      have h1 : bv.id ∉ ch.map Prod.fst := by rw [hbid]; exact hbch
      have h2 : bv.id ∉ cnt.map Prod.fst := by rw [hbid]; exact hbcnt
      rw [add_fresh bv h1 h2, hbid]
    rw [Node.mergeChildren, hadd]
    rw [ih k i (keys ++ [b]) (ch ++ [(b, bv.cloneN)]) (cnt ++ [(b, 1)])
      (sh ++ [bv.cloneN.getStyles]) (cid + 1) ?_ hndtl ?_]
    · simp only [List.map_cons, List.length_cons, List.append_assoc,
        List.singleton_append, List.cons_append, List.nil_append,
        Node.cache.injEq, true_and]
      omega
    · intro b' hb'
      obtain ⟨h1, h2⟩ := hfresh b' (by simp [hb'])
      have hne : b' ≠ b := fun he => hbtl (he ▸ hb')
      constructor
      · simp only [List.map_append, List.mem_append]
        push_neg
        exact ⟨h1, by simp [hne]⟩
      · simp only [List.map_append, List.mem_append]
        push_neg
        exact ⟨h2, by simp [hne]⟩
    · intro p hp
      exact hidl p (List.mem_cons_of_mem _ hp)

/-- Unmerging entries that sit, with reference count 1, at the tail of the
receiver removes exactly that tail and restores the original arrays. -/
theorem unmergeChildren_fresh :
    ∀ (l el : List (String × Node)) (ssh : List String) (k : CacheKind)
      (i : String) (keys : List String) (ch : List (String × Node))
      (cnt : List (String × Nat)) (sh : List String) (cid : Nat),
      l.map Prod.fst = el.map Prod.fst →
      (∀ p ∈ l, Node.id p.2 = p.1) →
      (∀ p ∈ el, Node.id p.2 = p.1) →
      (el.map Prod.fst).Nodup →
      (∀ b ∈ el.map Prod.fst, b ∉ keys ∧ b ∉ ch.map Prod.fst ∧
        b ∉ cnt.map Prod.fst) →
      ssh.length = el.length →
      sh.length = keys.length →
      Node.unmergeChildren
        (.cache k i (keys ++ el.map Prod.fst) (ch ++ el)
          (cnt ++ el.map fun p => (p.1, 1)) (sh ++ ssh) cid) l =
        .cache k i keys ch cnt sh (cid + l.length) := by
  intro l
  induction l with
  | nil =>
    intro el ssh k i keys ch cnt sh cid hmap hidll hidl hnd hfresh hlen hshlen
    have hel : el = [] := by
      cases el with
      | nil => rfl
      | cons e et => simp at hmap
    subst hel
    have hssh : ssh = [] := List.length_eq_zero.mp (by simpa using hlen)
    subst hssh
    rw [Node.unmergeChildren]
    simp
  | cons hd tl ih =>
    intro el ssh k i keys ch cnt sh cid hmap hidll hidl hnd hfresh hlen hshlen
    obtain ⟨b, bv⟩ := hd
    cases el with
    | nil => simp at hmap
    | cons ehd elt =>
      obtain ⟨eb, eitem⟩ := ehd
      cases ssh with
      | nil => simp at hlen
      | cons s0 sst =>
        simp only [List.map_cons, List.cons.injEq] at hmap
        obtain ⟨hbe, hmapt⟩ := hmap
        subst hbe
        obtain ⟨hbk, hbch, hbcnt⟩ := hfresh b (by simp)
        have hnd2 : (b :: elt.map Prod.fst).Nodup := by
          simpa only [List.map_cons] using hnd
        obtain ⟨hbtl, hndtl⟩ := List.nodup_cons.mp hnd2
        have hbid : bv.id = b := hidll (b, bv) (by simp)
        have heid : eitem.id = b := hidl (b, eitem) (by simp)
        rw [Node.unmergeChildren]
        have hrem :
            (Node.cache k i (keys ++ b :: elt.map Prod.fst)
              (ch ++ (b, eitem) :: elt)
              (cnt ++ (b, 1) :: elt.map fun p => (p.1, 1))
              (sh ++ s0 :: sst) cid).remove bv =
            .cache k i (keys ++ elt.map Prod.fst) (ch ++ elt)
              (cnt ++ elt.map fun p => (p.1, 1)) (sh ++ sst) (cid + 1) := by
          have hcnl : lookupA (cnt ++ (b, 1) :: elt.map fun p => (p.1, 1))
              bv.id = some 1 := by
            rw [hbid, lookupA_append_of_notMem _ hbcnt]
            simp [lookupA]
          have hchl : lookupA (ch ++ (b, eitem) :: elt) bv.id = some eitem := by
            rw [hbid, lookupA_append_of_notMem _ hbch]
            simp [lookupA]
          have hidx : (keys ++ b :: elt.map Prod.fst).indexOf eitem.id =
              keys.length := by
            rw [heid, indexOf_append_of_notMem _ hbk]
            simp [List.indexOf_cons_self]
          have herch : eraseA (ch ++ (b, eitem) :: elt) bv.id = ch ++ elt := by
            rw [hbid, eraseA_append_of_notMem _ hbch]
            simp [eraseA]
          have hercnt : eraseA (cnt ++ (b, 1) :: elt.map fun p => (p.1, 1))
              bv.id = cnt ++ elt.map fun p => (p.1, 1) := by
            rw [hbid, eraseA_append_of_notMem _ hbcnt]
            simp [eraseA]
          have herk : (keys ++ b :: elt.map Prod.fst).eraseIdx keys.length =
              keys ++ elt.map Prod.fst := by
            rw [eraseIdx_append_middle]
            rfl
          have hersh : (sh ++ s0 :: sst).eraseIdx keys.length =
              sh ++ sst := by
            rw [← hshlen, eraseIdx_append_middle]
            rfl
          cases bv with
          | sel ss si =>
            simp only [Node.id] at hcnl hchl herch hercnt
            simp only [Node.remove, hcnl, hchl]
            rw [hidx, herk, herch, hercnt, hersh]
            simp
          | cache ks is keyss chs cnts shs cids =>
            simp only [Node.id] at hcnl hchl herch hercnt
            simp only [Node.remove, hcnl, hchl]
            rw [hidx, herk, herch, hercnt, hersh]
            simp
        simp only [List.map_cons]
        rw [hrem]
        rw [ih elt sst k i keys ch cnt sh (cid + 1) hmapt ?_ ?_ hndtl ?_ ?_
          hshlen]
        · simp only [List.length_cons, Node.cache.injEq, true_and]
          omega
        · intro p hp
          exact hidll p (List.mem_cons_of_mem _ hp)
        · intro p hp
          exact hidl p (List.mem_cons_of_mem _ hp)
        · intro b' hb'
          exact hfresh b' (by simp [hb'])
        · simpa using hlen

/-- `clone()` preserves the rendered output of a well-formed cache, by
strong induction on size (the sheet of the clone is the rendered clones of
the children). -/
theorem cloneN_getStyles_all :
    ∀ N : Nat, ∀ c : Node, sizeOf c < N → WF c →
      c.cloneN.getStyles = c.getStyles := by
  intro N
  induction N using Nat.strong_induction_on with
  | _ N ih =>
    intro c hszc hc
    cases hc with
    | sel s i => simp [Node.cloneN]
    | cache hkeys hcnt hnd hid hwf hpos hsh =>
      rename_i k i keys ch cnt sh cid
      rw [Node.cloneN]
      have hM := mergeChildren_fresh ch k i [] [] [] [] 0 (by simp)
        (by rw [hkeys]; exact hnd) hid
      show (Node.mergeChildren (Node.cache k i [] [] [] [] 0) ch).getStyles = _
      rw [hM]
      have hsheq : (ch.map fun p => (Node.cloneN p.2).getStyles) = sh := by
        rw [hsh]
        refine List.map_congr_left ?_
        intro p hp
        have h1 : sizeOf p < sizeOf ch := List.sizeOf_lt_of_mem hp
        have h2 : sizeOf p.2 < sizeOf p := by
          obtain ⟨a, b⟩ := p
          simp
        have h3 : sizeOf ch < sizeOf (Node.cache k i keys ch cnt sh cid) := by
          simp
          omega
        exact ih (sizeOf p.2 + 1) (by omega) p.2 (by omega) (hwf p hp)
      simp only [List.nil_append]
      rw [hsheq]
      cases k <;> rfl

/-- `clone()` of a well-formed cache renders the same text. -/
theorem cloneN_getStyles {c : Node} (hc : WF c) :
    c.cloneN.getStyles = c.getStyles :=
  cloneN_getStyles_all (sizeOf c + 1) c (by omega) hc


/-- On a well-formed cache, every stored key has reference count at
least 1. -/
theorem stored_count_pos {c : Node} (hc : WF c) :
    ∀ b ∈ c.keyList, ∃ n, lookupA c.countersList b = some n ∧ 1 ≤ n := by
  cases hc with
  | sel s i => intro b hb; simp [Node.keyList] at hb
  | cache hkeys hcnt hnd hid hwf hpos hsh =>
    rename_i k i keys ch cnt sh cid
    intro b hb
    obtain ⟨n, hn⟩ := lookupA_isSome_of_mem (l := cnt) (by rw [hcnt]; exact hb)
    exact ⟨n, hn, hpos _ (lookupA_eq_some_mem hn)⟩

/-- Adding a node whose entry sits (with nonzero count) at the tail of
the parallel arrays keeps the arrays in that shape: only the tail child,
its sheet entry and its count (incremented) can change, and the stored
child keeps its id. -/
theorem add_tail_shape {k : CacheKind} {i b : String} {keys : List String}
    {ch : List (String × Node)} {cnt : List (String × Nat)} {sh : List String}
    {y : String} {cid m : Nat} {v : Node} (s : Node) (hsid : s.id = b)
    (hbk : b ∉ keys) (hbch : b ∉ ch.map Prod.fst)
    (hbcnt : b ∉ cnt.map Prod.fst) (hshlen : sh.length = keys.length)
    (hm : m ≠ 0) :
    ∃ v' y' cid', (Node.cache k i (keys ++ [b]) (ch ++ [(b, v)])
        (cnt ++ [(b, m)]) (sh ++ [y]) cid).add s =
      .cache k i (keys ++ [b]) (ch ++ [(b, v')]) (cnt ++ [(b, m + 1)])
        (sh ++ [y']) cid' ∧ v'.id = v.id := by
  have hcnl : lookupA (cnt ++ [(b, m)]) s.id = some m := by
    rw [hsid, lookupA_append_of_notMem _ hbcnt]
    simp [lookupA]
  have hchl : lookupA (ch ++ [(b, v)]) s.id = some v := by
    rw [hsid, lookupA_append_of_notMem _ hbch]
    simp [lookupA]
  have hcnt2 : setA (cnt ++ [(b, m)]) s.id (m + 1) = cnt ++ [(b, m + 1)] := by
    rw [hsid, setA_append_of_notMem _ hbcnt]
    simp [setA]
  cases s with
  | sel ss si =>
    simp only [Node.id] at hsid hcnl hchl hcnt2
    subst hsid
    refine ⟨v, y, cid, ?_, rfl⟩
    simp only [Node.add, hcnl, Option.getD_some]
    rw [if_neg hm, hcnt2]
  | cache ks is keyss chs cnts shs cids =>
    simp only [Node.id] at hsid hcnl hchl hcnt2
    subst hsid
    simp only [Node.add, hcnl, hchl, Option.getD_some, Node.id]
    rw [if_neg hm]
    by_cases hic : v.isCache = true
    · rw [if_pos hic]
      have hch2 : setA (ch ++ [(is, v)]) is (Node.mergeChildren v chs) =
          ch ++ [(is, Node.mergeChildren v chs)] := by
        rw [setA_append_of_notMem _ hbch]
        simp [setA]
      by_cases hb : (Node.mergeChildren v chs).changeId ≠ v.changeId
      · rw [if_pos hb, hch2, hcnt2]
        have hidx : (keys ++ [is]).indexOf is = keys.length := by
          rw [indexOf_append_of_notMem _ hbk]
          simp [List.indexOf_cons_self]
        rw [hidx, ← hshlen, set_append_middle]
        exact ⟨Node.mergeChildren v chs,
          (Node.mergeChildren v chs).getStyles, cid + 1, by simp,
          mergeChildren_id chs v⟩
      · rw [if_neg hb, hch2, hcnt2]
        exact ⟨Node.mergeChildren v chs, y, cid, rfl, mergeChildren_id chs v⟩
    · rw [if_neg hic, hcnt2]
      exact ⟨v, y, cid, rfl, rfl⟩

/-- Removing a node whose entry sits at the tail with count at least 2
keeps the tail shape and decrements the count. -/
theorem remove_tail_shape {k : CacheKind} {i b : String} {keys : List String}
    {ch : List (String × Node)} {cnt : List (String × Nat)} {sh : List String}
    {y : String} {cid m : Nat} {v : Node} (s : Node) (hsid : s.id = b)
    (hbk : b ∉ keys) (hbch : b ∉ ch.map Prod.fst)
    (hbcnt : b ∉ cnt.map Prod.fst) (hshlen : sh.length = keys.length)
    (hm0 : m ≠ 0) (hm1 : m ≠ 1) (hvid : v.id = b) :
    ∃ v' y' cid', (Node.cache k i (keys ++ [b]) (ch ++ [(b, v)])
        (cnt ++ [(b, m)]) (sh ++ [y]) cid).remove s =
      .cache k i (keys ++ [b]) (ch ++ [(b, v')]) (cnt ++ [(b, m - 1)])
        (sh ++ [y']) cid' ∧ v'.id = v.id := by
  have hcnl : lookupA (cnt ++ [(b, m)]) s.id = some m := by
    rw [hsid, lookupA_append_of_notMem _ hbcnt]
    simp [lookupA]
  have hchl : lookupA (ch ++ [(b, v)]) s.id = some v := by
    rw [hsid, lookupA_append_of_notMem _ hbch]
    simp [lookupA]
  have hcnt2 : setA (cnt ++ [(b, m)]) s.id (m - 1) = cnt ++ [(b, m - 1)] := by
    rw [hsid, setA_append_of_notMem _ hbcnt]
    simp [setA]
  cases s with
  | sel ss si =>
    simp only [Node.id] at hsid hcnl hchl hcnt2
    subst hsid
    refine ⟨v, y, cid, ?_, rfl⟩
    simp only [Node.remove, hcnl, hchl]
    rw [if_neg hm0, if_neg hm1, hcnt2]
  | cache ks is keyss chs cnts shs cids =>
    simp only [Node.id] at hsid hcnl hchl hcnt2
    subst hsid
    simp only [Node.remove, hcnl, hchl]
    rw [if_neg hm0, if_neg hm1]
    by_cases hic : v.isCache = true
    · rw [if_pos hic]
      have hch2 : setA (ch ++ [(is, v)]) is (Node.unmergeChildren v chs) =
          ch ++ [(is, Node.unmergeChildren v chs)] := by
        rw [setA_append_of_notMem _ hbch]
        simp [setA]
      by_cases hb : (Node.unmergeChildren v chs).changeId ≠ v.changeId
      · rw [if_pos hb, hch2, hcnt2]
        have hidx : (keys ++ [is]).indexOf v.id = keys.length := by
          rw [hvid, indexOf_append_of_notMem _ hbk]
          simp [List.indexOf_cons_self]
        rw [hidx, ← hshlen, set_append_middle]
        exact ⟨Node.unmergeChildren v chs,
          (Node.unmergeChildren v chs).getStyles, cid + 1, by simp,
          unmergeChildren_id chs v⟩
      · rw [if_neg hb, hch2, hcnt2]
        exact ⟨Node.unmergeChildren v chs, y, cid, rfl,
          unmergeChildren_id chs v⟩
    · rw [if_neg hic, hcnt2]
      exact ⟨v, y, cid, rfl, rfl⟩

/-- Removing a node whose entry sits at the tail with count exactly 1
erases the entry from every parallel array, restoring the originals. -/
theorem remove_tail_last {k : CacheKind} {i b : String} {keys : List String}
    {ch : List (String × Node)} {cnt : List (String × Nat)} {sh : List String}
    {y : String} {cid : Nat} {v : Node} (s : Node) (hsid : s.id = b)
    (hbk : b ∉ keys) (hbch : b ∉ ch.map Prod.fst)
    (hbcnt : b ∉ cnt.map Prod.fst) (hshlen : sh.length = keys.length)
    (hvid : v.id = b) :
    (Node.cache k i (keys ++ [b]) (ch ++ [(b, v)]) (cnt ++ [(b, 1)])
        (sh ++ [y]) cid).remove s =
      .cache k i keys ch cnt sh (cid + 1) := by
  have hcnl : lookupA (cnt ++ [(b, 1)]) s.id = some 1 := by
    rw [hsid, lookupA_append_of_notMem _ hbcnt]
    simp [lookupA]
  have hchl : lookupA (ch ++ [(b, v)]) s.id = some v := by
    rw [hsid, lookupA_append_of_notMem _ hbch]
    simp [lookupA]
  have hidx : (keys ++ [b]).indexOf v.id = keys.length := by
    rw [hvid, indexOf_append_of_notMem _ hbk]
    simp [List.indexOf_cons_self]
  have herk : (keys ++ [b]).eraseIdx keys.length = keys := by
    rw [eraseIdx_append_middle]
    simp
  have hersh : (sh ++ [y]).eraseIdx keys.length = sh := by
    rw [← hshlen, eraseIdx_append_middle]
    simp
  have herch : eraseA (ch ++ [(b, v)]) s.id = ch := by
    rw [hsid, eraseA_append_of_notMem _ hbch]
    simp [eraseA]
  have hercnt : eraseA (cnt ++ [(b, 1)]) s.id = cnt := by
    rw [hsid, eraseA_append_of_notMem _ hbcnt]
    simp [eraseA]
  cases s with
  | sel ss si =>
    simp only [Node.id] at hsid hcnl hchl herch hercnt
    subst hsid
    simp only [Node.remove, hcnl, hchl]
    rw [hidx, herk, herch, hercnt, hersh]
    simp
  | cache ks is keyss chs cnts shs cids =>
    simp only [Node.id] at hsid hcnl hchl herch hercnt
    subst hsid
    simp only [Node.remove, hcnl, hchl]
    rw [hidx, herk, herch, hercnt, hersh]
    simp

/-- Transport a projected fact about a certified `registerStyleO` run to
`registerStyle`. -/
theorem registerStyle_proj {β : Type} (fuel : Nat) {fs : Node} {uid : Nat}
    {css : SObj} {f : String × Node × Nat → β} {v : β}
    (h : (registerStyleO fuel fs uid css).map f = some v) :
    f (registerStyle fs uid css) = v := by
  obtain ⟨r, hr, hv⟩ := Option.map_eq_some'.mp h
  rw [registerStyleO_sound hr]; exact hv

/-- The keys of a sorted tuple list are in ascending lexical order. -/
theorem sortTuples_sorted {α : Type} (l : List (String × α)) :
    List.Sorted (· ≤ ·) ((sortTuples l).map Prod.fst) := by
  letI : IsTotal (String × α) (fun a b => strLe a.1 b.1 = true) :=
    ⟨fun a b => by
      rcases le_total a.1 b.1 with h | h
      · exact Or.inl ((strLe_iff _ _).mpr h)
      · exact Or.inr ((strLe_iff _ _).mpr h)⟩
  letI : IsTrans (String × α) (fun a b => strLe a.1 b.1 = true) :=
    ⟨fun _ _ _ h1 h2 => (strLe_iff _ _).mpr
      (le_trans ((strLe_iff _ _).mp h1) ((strLe_iff _ _).mp h2))⟩
  have h := List.sorted_insertionSort (fun a b : String × α => strLe a.1 b.1 = true) l
  exact List.Pairwise.map Prod.fst (fun _ _ hab => (strLe_iff _ _).mp hab) h

/-- `sortTuples` permutes its input. -/
theorem sortTuples_perm {α : Type} (l : List (String × α)) :
    (sortTuples l).Perm l :=
  List.perm_insertionSort _ l

/-- The property branch of the `stylize` entry walk as a `filterMap`. -/
def propOf : String × SProp → Option (String × PropVal)
  | (k, v) =>
    if k.data.head? = some '$' then none
    else match v with
      | .val x => some (hyphenate k, .one x)
      | .arr xs => some (hyphenate k, .many xs)
      | _ => none

/-- The nested branch of the `stylize` entry walk as a `filterMap`. -/
def nestOf : String × SProp → Option (String × SObj)
  | (k, v) =>
    if k.data.head? = some '$' then none
    else match v with
      | .sub s => some (k, s)
      | _ => none

/-- `partitionStyles` is the pair of the two `filterMap`s. -/
theorem partitionStyles_eq (es : List (String × SProp)) :
    partitionStyles es = (es.filterMap propOf, es.filterMap nestOf) := by
  induction es with
  | nil => rfl
  | cons hd tl ih =>
    obtain ⟨k, v⟩ := hd
    simp only [partitionStyles, List.filterMap_cons, propOf, nestOf, ih]
    split
    · simp
    · cases v <;> simp

/-- On a tuple list whose keys are distinct, `sortTuples` is determined by
the multiset of tuples: permuting the input does not change the output. -/
theorem sortTuples_eq_of_perm {α : Type} {p q : List (String × α)}
    (hpq : p.Perm q) (hnd : (q.map Prod.fst).Nodup) :
    sortTuples p = sortTuples q := by
  letI : IsTotal (String × α) (fun a b => strLe a.1 b.1 = true) :=
    ⟨fun a b => by
      rcases le_total a.1 b.1 with h | h
      · exact Or.inl ((strLe_iff _ _).mpr h)
      · exact Or.inr ((strLe_iff _ _).mpr h)⟩
  letI : IsTrans (String × α) (fun a b => strLe a.1 b.1 = true) :=
    ⟨fun _ _ _ h1 h2 => (strLe_iff _ _).mpr
      (le_trans ((strLe_iff _ _).mp h1) ((strLe_iff _ _).mp h2))⟩
  letI : IsAntisymm (String × α) (fun a b => a.1 < b.1) :=
    ⟨fun _ _ h1 h2 => absurd h1 (lt_asymm h2)⟩
  have hperm : (sortTuples p).Perm (sortTuples q) :=
    (sortTuples_perm p).trans (hpq.trans (sortTuples_perm q).symm)
  have hsort : ∀ l : List (String × α), (l.map Prod.fst).Nodup →
      List.Sorted (fun a b : String × α => a.1 < b.1) (sortTuples l) := by
    intro l hl
    have hle : List.Pairwise (fun a b : String × α => strLe a.1 b.1 = true) (sortTuples l) :=
      List.sorted_insertionSort _ l
    have hmapnd : ((sortTuples l).map Prod.fst).Nodup :=
      (((sortTuples_perm l).map Prod.fst).nodup_iff).mpr hl
    have hne : List.Pairwise (fun a b : String × α => a.1 ≠ b.1) (sortTuples l) :=
      List.pairwise_map.mp hmapnd
    exact (hle.and hne).imp fun h => lt_of_le_of_ne ((strLe_iff _ _).mp h.1) h.2
  have hndp : (p.map Prod.fst).Nodup := ((hpq.map Prod.fst).nodup_iff).mpr hnd
  exact List.eq_of_perm_of_sorted hperm (hsort p hndp) (hsort q hnd)

/-- Global (`$global`) styles objects are insensitive to the ordering of
their keys: `stylize` sorts both the properties and the nested keys when
the effective parent selector is empty. -/
theorem stylize_global_perm {u : Bool} {dn : Option String}
    {es es' : List (String × SProp)} (rl : List StylizeRule)
    (sl : List StylizeStyle) (key p : String) (hperm : es'.Perm es)
    (hndp : ((partitionStyles es).1.map Prod.fst).Nodup)
    (hndn : ((partitionStyles es).2.map Prod.fst).Nodup) :
    stylize rl sl key (.mk u true dn es') p = stylize rl sl key (.mk u true dn es) p := by
  have hp : (partitionStyles es').1.Perm (partitionStyles es).1 := by
    rw [partitionStyles_eq, partitionStyles_eq]
    exact hperm.filterMap _
  have hn : (partitionStyles es').2.Perm (partitionStyles es).2 := by
    rw [partitionStyles_eq, partitionStyles_eq]
    exact hperm.filterMap _
  simp only [stylize, nestedSel, if_true, reduceIte, ne_eq, not_true_eq_false]
  rw [sortTuples_eq_of_perm hp hndp, sortTuples_eq_of_perm hn hndn]

/-- Permutation invariance of global registrations at the`registerStyle`
level (the returned name reads only `$displayName` beside the pid). -/
theorem registerStyle_global_perm (fs : Node) (uid : Nat) {u : Bool}
    {dn : Option String} {es es' : List (String × SProp)} (hperm : es'.Perm es)
    (hndp : ((partitionStyles es).1.map Prod.fst).Nodup)
    (hndn : ((partitionStyles es).2.map Prod.fst).Nodup) :
    registerStyle fs uid (.mk u true dn es') = registerStyle fs uid (.mk u true dn es) := by
  simp only [registerStyle, key, SObj.displayName]
  rw [stylize_global_perm _ _ _ _ hperm hndp hndn]

/-- `stylize` is insensitive to permutations of the entries of an object
with no nested styles: properties are sorted before serialization. -/
theorem stylize_props_perm {u g : Bool} {dn : Option String}
    {es es' : List (String × SProp)} (rl : List StylizeRule)
    (sl : List StylizeStyle) (key p : String) (hperm : es'.Perm es)
    (hndp : ((partitionStyles es).1.map Prod.fst).Nodup)
    (hnon : (partitionStyles es).2 = []) :
    stylize rl sl key (.mk u g dn es') p =
      stylize rl sl key (.mk u g dn es) p := by
  have hp : (partitionStyles es').1.Perm (partitionStyles es).1 := by
    rw [partitionStyles_eq, partitionStyles_eq]
    exact hperm.filterMap _
  have hn : (partitionStyles es').2 = [] := by
    have h2 : (partitionStyles es').2.Perm (partitionStyles es).2 := by
      rw [partitionStyles_eq, partitionStyles_eq]
      exact hperm.filterMap _
    rw [hnon] at h2
    exact h2.eq_nil
  simp only [stylize]
  rw [sortTuples_eq_of_perm hp hndp, hn, hnon]

/-- Property-key re-ordering (no nested styles) preserves the entire
`registerStyle` result. -/
theorem registerStyle_props_perm (fs : Node) (uid : Nat) {u g : Bool}
    {dn : Option String} {es es' : List (String × SProp)}
    (hperm : es'.Perm es)
    (hndp : ((partitionStyles es).1.map Prod.fst).Nodup)
    (hnon : (partitionStyles es).2 = []) :
    registerStyle fs uid (.mk u g dn es') =
      registerStyle fs uid (.mk u g dn es) := by
  simp only [registerStyle, key, SObj.displayName]
  rw [stylize_props_perm _ _ _ _ hperm hndp hnon]


/-!
The `O...` definitions below embed the earlier generation of the library:
`src/Cache.ts` with its sibling node classes (`Selector.ts`, `Style.ts`,
`Rule.ts`, `FreeStyle.ts`).  That generation stores no incremental `sheet`
(`getStyles` recurses over `values()`), carries a secondary content
signature `getIdentifier()`, and `Cache.add` throws a `Hash collision`
`TypeError` when an id is reused with a different `getIdentifier()`.  Only
the operations claim C4 exercises are embedded: `add` (with its `clone` and
`merge` companions) and the two render functions.  A thrown JS exception is
modelled by returning the post-throw state paired with `some message`
(mutations performed before the `throw` persist, exactly as in JS). -/

inductive OKind where
  | styleK (styleText : String)
  | ruleK (ruleText styleText pid : String)
  | sheetK
deriving DecidableEq, Repr

inductive ONode : Type where
  | sel (selector id pid : String) : ONode
  | cache (k : OKind) (id : String) (keys : List String)
      (children : List (String × ONode)) (counters : List (String × Nat))
      (changeId : Nat) : ONode

/-- The `id` property of an old-generation container. -/
def ONode.idO : ONode → String
  | .sel _ i _ => i
  | .cache _ i _ _ _ _ => i

/-- `instanceof Cache` for the old generation. -/
def ONode.isCacheO : ONode → Bool
  | .sel _ _ _ => false
  | .cache _ _ _ _ _ _ => true

/-- The old-generation `changeId` (0 for `Selector`). -/
def ONode.changeIdO : ONode → Nat
  | .sel _ _ _ => 0
  | .cache _ _ _ _ _ cid => cid

/-- The old-generation `_keys` array. -/
def ONode.keysO : ONode → List String
  | .sel _ _ _ => []
  | .cache _ _ keys _ _ _ => keys

/-- The old-generation `_children` record. -/
def ONode.childrenO : ONode → List (String × ONode)
  | .sel _ _ _ => []
  | .cache _ _ _ ch _ _ => ch

/-- The old-generation `_counters` record. -/
def ONode.countersO : ONode → List (String × Nat)
  | .sel _ _ _ => []
  | .cache _ _ _ _ cnt _ => cnt

/-- `getIdentifier()` of each old-generation class: `Selector` renders
`pid + "." + selector`, `Style` its literal style text, `Rule`
`pid + "." + rule + "." + style`, and `FreeStyle` its instance id. -/
def ONode.getIdentifierO : ONode → String
  | .sel s _ p => p ++ "." ++ s
  | .cache (.styleK sty) _ _ _ _ _ => sty
  | .cache (.ruleK r sty p) _ _ _ _ _ => p ++ "." ++ r ++ "." ++ sty
  | .cache .sheetK i _ _ _ _ => i

/-- `values()` of the old generation. -/
def ONode.valuesO (n : ONode) : List ONode :=
  n.keysO.filterMap (lookupA n.childrenO)

mutual

/-- Nesting depth of an old-generation node (termination measure). -/
def ONode.depthO : ONode → Nat
  | .sel _ _ _ => 0
  | .cache _ _ _ ch _ _ => ONode.depthLC ch + 1

/-- Maximum depth of a children record. -/
def ONode.depthLC : List (String × ONode) → Nat
  | [] => 0
  | (_, n) :: rest => max (ONode.depthO n) (ONode.depthLC rest)

end

/-- A successful association lookup returns a stored entry. -/
theorem lookupA_mem {α : Type} :
    ∀ {l : List (String × α)} {k : String} {v : α},
    lookupA l k = some v → v ∈ l.map Prod.snd := by
  intro l
  induction l with
  | nil => intro k v h; simp [lookupA] at h
  | cons hd tl ih =>
    intro k v h
    obtain ⟨hk, hv⟩ := hd
    simp only [lookupA] at h
    split at h
    · simp_all
    · simp only [List.map_cons, List.mem_cons]
      exact Or.inr (ih h)

/-- Entries of a children record are strictly shallower than the record. -/
theorem depthO_lt_of_mem {n : ONode} {ch : List (String × ONode)}
    (h : n ∈ ch.map Prod.snd) : ONode.depthO n ≤ ONode.depthLC ch := by
  induction ch with
  | nil => simp at h
  | cons hd tl ih =>
    obtain ⟨hk, hv⟩ := hd
    simp only [List.map_cons, List.mem_cons] at h
    rcases h with h | h
    · subst h; simp [ONode.depthLC, le_max_iff]
    · simp only [ONode.depthLC, le_max_iff]
      exact Or.inr (ih h)

/-- Depth bound for the members of `valuesO`. -/
theorem depthO_values_lt {c v : ONode} (h : v ∈ c.valuesO) :
    ONode.depthO v + 1 ≤ ONode.depthO c := by
  cases c with
  | sel s i p => simp [ONode.valuesO, ONode.keysO] at h
  | cache k i keys ch cnt cid =>
    simp only [ONode.valuesO, ONode.keysO, ONode.childrenO, List.mem_filterMap] at h
    obtain ⟨kk, _, hl⟩ := h
    have := depthO_lt_of_mem (lookupA_mem hl)
    simp only [ONode.depthO]
    omega

/-- Maximum depth of a plain node list. -/
def depthL : List ONode → Nat
  | [] => 0
  | n :: rest => max (ONode.depthO n) (depthL rest)

/-- `depthL` bounds every member. -/
theorem depthL_mem {n : ONode} : ∀ {l : List ONode}, n ∈ l → ONode.depthO n ≤ depthL l := by
  intro l
  induction l with
  | nil => intro h; simp at h
  | cons hd tl ih =>
    intro h
    simp only [List.mem_cons] at h
    rcases h with h | h
    · subst h; simp [depthL, le_max_iff]
    · simp only [depthL, le_max_iff]
      exact Or.inr (ih h)

/-- `depthL` of the values list is below the cache depth. -/
theorem depthL_values {c : ONode} : depthL c.valuesO + 1 ≤ ONode.depthO c ∨ c.valuesO = [] := by
  cases hv : c.valuesO with
  | nil => exact Or.inr rfl
  | cons x rest =>
    left
    have hb : ∀ v ∈ c.valuesO, ONode.depthO v + 1 ≤ ONode.depthO c := fun v hm =>
      depthO_values_lt hm
    rw [hv] at hb
    have : ∀ l : List ONode, (∀ v ∈ l, ONode.depthO v + 1 ≤ ONode.depthO c) →
        l ≠ [] → depthL l + 1 ≤ ONode.depthO c := by
      intro l
      induction l with
      | nil => intro _ hne; exact absurd rfl hne
      | cons y ys ihy =>
        intro hall hne
        simp only [depthL]
        cases ys with
        | nil =>
          simp only [depthL, Nat.max_zero]
          exact hall y (List.mem_cons_self y [])
        | cons z zs =>
          have h1 := hall y (List.mem_cons_self y _)
          have h2 := ihy (fun v hm => hall v (List.mem_cons_of_mem y hm)) (by simp)
          omega
    exact this (x :: rest) hb (by simp)

mutual

/-- `getStyles()` of each old-generation class: `Selector` returns its
selector text; `Style` joins its selector children with `,` and braces its
style text; `Rule` braces style text plus children; `FreeStyle`
concatenates its children.  All recurse through `values()`. -/
def ONode.getStylesO (n : ONode) : String :=
  match n with
  | .sel s _ _ => s
  | .cache (.styleK sty) i keys ch cnt cid =>
    String.intercalate ","
        (ONode.getStylesLO ((ONode.cache (.styleK sty) i keys ch cnt cid).valuesO)) ++
      "\x7b" ++ sty ++ "\x7d"
  | .cache (.ruleK r sty p) i keys ch cnt cid =>
    r ++ "\x7b" ++ sty ++
      joinList (ONode.getStylesLO ((ONode.cache (.ruleK r sty p) i keys ch cnt cid).valuesO)) ++
      "\x7d"
  | .cache .sheetK i keys ch cnt cid =>
    joinList (ONode.getStylesLO ((ONode.cache .sheetK i keys ch cnt cid).valuesO))
termination_by (2 * ONode.depthO n + 1, 0)
decreasing_by
  all_goals apply Prod.Lex.left
  · rename_i i keys ch cnt cid
    rcases depthL_values (c := ONode.cache (.styleK sty) i keys ch cnt cid) with h | h
    · omega
    · rw [h]; simp only [depthL, ONode.depthO]; omega
  · rename_i i keys ch cnt cid
    rcases depthL_values (c := ONode.cache (.ruleK r sty p) i keys ch cnt cid) with h | h
    · omega
    · rw [h]; simp only [depthL, ONode.depthO]; omega
  · rename_i keys ch cnt cid
    rcases depthL_values (c := ONode.cache .sheetK i keys ch cnt cid) with h | h
    · omega
    · rw [h]; simp only [depthL, ONode.depthO]; omega

/-- `values().map(x => x.getStyles())` for the old generation. -/
def ONode.getStylesLO : List ONode → List String
  | [] => []
  | n :: rest => ONode.getStylesO n :: ONode.getStylesLO rest
termination_by l => (2 * depthL l + 2, l.length)
decreasing_by
  · apply Prod.Lex.left
    have h1 : ONode.depthO n ≤ depthL (n :: rest) := depthL_mem (List.mem_cons_self n rest)
    omega
  · have h1 : depthL rest ≤ depthL (n :: rest) := by simp [depthL, le_max_iff]
    rcases Nat.lt_or_ge (2 * depthL rest + 2) (2 * depthL (n :: rest) + 2) with h | h
    · exact Prod.Lex.left _ _ h
    · have h2 : 2 * depthL rest + 2 = 2 * depthL (n :: rest) + 2 := by omega
      rw [h2]
      exact Prod.Lex.right _ (by simp)

end

mutual

/-- `Cache.add` from `src/Cache.ts`.  The collision check precedes the
move-to-end of `_keys` and the nested merge; the counter increment
precedes everything, so a thrown collision leaves the counter already
incremented.  The result pairs the post-call state with `some message`
when a `TypeError` was thrown. -/
def ONode.addOld (c style : ONode) : ONode × Option String :=
  match c with
  | .sel s i p => (.sel s i p, none)
  | .cache k i keys ch cnt cid =>
    match style with
    | .sel ss si sp =>
      -- incoming `Selector`: `clone()` copies it and cannot throw
      let count := (lookupA cnt si).getD 0
      let item := (lookupA ch si).getD (.sel ss si sp)
      let cnt' := setA cnt si (count + 1)
      if count = 0 then
        ((.cache k i (keys ++ [item.idO]) (setA ch item.idO item) cnt' (cid + 1)), none)
      else if item.getIdentifierO ≠ ONode.getIdentifierO (.sel ss si sp) then
        ((.cache k i keys ch cnt' cid),
          some ("Hash collision: " ++ ONode.getStylesO (.sel ss si sp) ++ " === " ++
            item.getStylesO))
      else
        ((.cache k i ((keys.eraseIdx (keys.indexOf si)) ++ [si]) ch cnt' cid), none)
    | .cache ks is keyss chs cnts cids =>
      let style := ONode.cache ks is keyss chs cnts cids
      match lookupA ch is with
      | none =>
        -- `style.clone()` runs before the counter increment and can throw
        let cl := ONode.cloneOld (.cache ks is keyss chs cnts cids)
        match cl.2 with
        | some e => ((.cache k i keys ch cnt cid), some e)
        | none =>
          let item := cl.1
          let count := (lookupA cnt is).getD 0
          let cnt' := setA cnt is (count + 1)
          if count = 0 then
            ((.cache k i (keys ++ [item.idO]) (setA ch item.idO item) cnt' (cid + 1)), none)
          else if item.getIdentifierO ≠ style.getIdentifierO then
            ((.cache k i keys ch cnt' cid),
              some ("Hash collision: " ++ style.getStylesO ++ " === " ++ item.getStylesO))
          else if item.isCacheO then
            -- `item` is a fresh clone here (ill-formed input state): the
            -- nested merge mutates only the clone, which is never stored
            let res := ONode.mergeChildrenOld item chs
            let keys' := (keys.eraseIdx (keys.indexOf is)) ++ [is]
            match res.2 with
            | some e => ((.cache k i keys' ch cnt' cid), some e)
            | none =>
              if res.1.changeIdO ≠ item.changeIdO then
                ((.cache k i keys' ch cnt' (cid + 1)), none)
              else
                ((.cache k i keys' ch cnt' cid), none)
          else
            ((.cache k i ((keys.eraseIdx (keys.indexOf is)) ++ [is]) ch cnt' cid), none)
      | some item =>
        let count := (lookupA cnt is).getD 0
        let cnt' := setA cnt is (count + 1)
        if count = 0 then
          ((.cache k i (keys ++ [item.idO]) (setA ch item.idO item) cnt' (cid + 1)), none)
        else if item.getIdentifierO ≠ style.getIdentifierO then
          ((.cache k i keys ch cnt' cid),
            some ("Hash collision: " ++ style.getStylesO ++ " === " ++ item.getStylesO))
        else if item.isCacheO then
          let res := ONode.mergeChildrenOld item chs
          let keys' := (keys.eraseIdx (keys.indexOf is)) ++ [is]
          let ch' := setA ch is res.1
          match res.2 with
          | some e => ((.cache k i keys' ch' cnt' cid), some e)
          | none =>
            if res.1.changeIdO ≠ item.changeIdO then
              ((.cache k i keys' ch' cnt' (cid + 1)), none)
            else
              ((.cache k i keys' ch' cnt' cid), none)
        else
          ((.cache k i ((keys.eraseIdx (keys.indexOf is)) ++ [is]) ch cnt' cid), none)

/-- `Cache.merge` of `src/Cache.ts` over the stored child entries; a thrown
collision aborts the loop, keeping the mutations made so far. -/
def ONode.mergeChildrenOld (c : ONode) : List (String × ONode) → ONode × Option String
  | [] => (c, none)
  | (_, v) :: rest =>
    let res := ONode.addOld c v
    match res.2 with
    | some e => (res.1, some e)
    | none => ONode.mergeChildrenOld res.1 rest

/-- `clone()` of the old generation: `Selector.clone` copies its fields;
the cache classes build an empty node with the same constructor payload and
`merge(this)` into it. -/
def ONode.cloneOld (n : ONode) : ONode × Option String :=
  match n with
  | .sel s i p => (.sel s i p, none)
  | .cache k i _ ch _ _ =>
    ONode.mergeChildrenOld (.cache k i [] [] [] 0) ch

end

end FS

namespace FS

/-- **C8** (corrected).  `styleToString` renders `p:<v>px` for a numeric
value `v ≠ 0` when `p` is not in the unit-less whitelist; whitelisted
properties — including every vendor-marked variant of every whitelisted
base name — and non-numeric values never receive a suffix.  The claim as
frozen demands the suffix for every numeric value, but the JS truthiness
test in `styleToString` suppresses it for `0` (`C8_counterexample`). -/
theorem C8_px_suffix :
    (∀ (name : String) (n : Int), n ≠ 0 → name ∉ CSS_NUMBER →
      styleToString name (.num n) = name ++ ":" ++ toString n ++ "px") ∧
    (∀ (name : String) (n : Int), name ∈ CSS_NUMBER →
      styleToString name (.num n) = name ++ ":" ++ toString n) ∧
    (∀ name : String, styleToString name (.num 0) = name ++ ":" ++ "0") ∧
    (∀ (name s : String), styleToString name (.str s) = name ++ ":" ++ s) ∧
    (∀ (name : String) (b : Bool),
      styleToString name (.bool b) =
        name ++ ":" ++ (if b then "true" else "false")) ∧
    (∀ base ∈ CSS_NUMBER_KEYS, ∀ pre ∈ vendorPres, pre ++ base ∈ CSS_NUMBER) := by
  refine ⟨?_, ?_, ?_, ?_, ?_, ?_⟩
  · intro name n hn hmem
    have h1 : CSS_NUMBER.contains name = false := by
      rw [Bool.eq_false_iff]
      intro hc
      exact hmem (List.elem_iff.mp hc)
    simp [styleToString, SVal.truthyNum, SVal.display, h1, hn, hmem]
  · intro name n hmem
    have h1 : CSS_NUMBER.contains name = true := List.elem_iff.mpr hmem
    simp [styleToString, SVal.truthyNum, SVal.display, h1, hmem]
  · intro name
    simp [styleToString, SVal.truthyNum, SVal.display]
    rw [show toString (0 : Int) = "0" from rfl]
  · intro name s
    simp [styleToString, SVal.truthyNum, SVal.display]
  · intro name b
    simp [styleToString, SVal.truthyNum, SVal.display]
  · intro base hb pre hp
    exact List.mem_flatMap.mpr ⟨base, hb, List.mem_map.mpr ⟨pre, hp, rfl⟩⟩

/-- Witness for `C8_px_suffix` at concrete inputs. -/
theorem C8_px_suffix_witness :
    styleToString "margin-top" (.num 10) = "margin-top:10px" ∧
    styleToString "z-index" (.num 10) = "z-index:10" ∧
    ("-webkit-" ++ "line-clamp") ∈ CSS_NUMBER :=
  ⟨C8_px_suffix.1 "margin-top" 10 (by decide) (by decide),
   C8_px_suffix.2.1 "z-index" 10 (by decide),
   C8_px_suffix.2.2.2.2.2 "line-clamp" (by decide) "-webkit-" (by decide)⟩

/-- **C8 counterexample**.  `width` is not unit-less, yet the numeric value
`0` is serialized without the `px` suffix the claim demands. -/
theorem C8_counterexample :
    "width" ∉ CSS_NUMBER ∧ styleToString "width" (.num 0) = "width:0" ∧
    "width:0" ≠ "width:0px" :=
  ⟨by decide, by decide, by decide⟩

/-- **C4** (corrected).  When `add` is called on an old-generation cache
that already stores an item under the incoming node's id (count ≥ 1) whose
finer-grained `getIdentifier()` differs, the call aborts with the
descriptive `Hash collision` error naming both conflicting contents, and
leaves `_keys`, `_children` and `changeId` unchanged — but the reference
count for that id has already been incremented by the aborted call, so the
cache is not in its exact pre-call state (`C4_counterexample`). -/
theorem C4_collision (k : OKind) (i : String) (keys : List String)
    (ch : List (String × ONode)) (cnt : List (String × Nat)) (cid : Nat)
    (style item : ONode) (count : Nat)
    (hch : lookupA ch style.idO = some item)
    (hcnt : lookupA cnt style.idO = some count) (hc0 : count ≠ 0)
    (hid : item.getIdentifierO ≠ style.getIdentifierO) :
    ONode.addOld (.cache k i keys ch cnt cid) style =
      (.cache k i keys ch (setA cnt style.idO (count + 1)) cid,
       some ("Hash collision: " ++ style.getStylesO ++ " === " ++ item.getStylesO)) := by
  cases style with
  | sel ss si sp =>
    simp only [ONode.idO] at hch hcnt ⊢
    simp only [ONode.addOld, hch, hcnt, Option.getD_some]
    rw [if_neg hc0, if_pos hid]
  | cache ks is keyss chs cnts cids =>
    simp only [ONode.idO] at hch hcnt ⊢
    simp only [ONode.addOld, hch, hcnt, Option.getD_some]
    rw [if_neg hc0, if_pos hid]

/-- Witness for `C4_collision`: two selectors sharing the id `sX` with
different content signatures collide. -/
theorem C4_collision_witness :
    ONode.addOld
        (.cache (.styleK "color:red") "c1" ["sX"] [("sX", .sel "a" "sX" "")]
          [("sX", 1)] 1)
        (.sel "b" "sX" "q") =
      (.cache (.styleK "color:red") "c1" ["sX"] [("sX", .sel "a" "sX" "")]
        [("sX", 2)] 1,
       some "Hash collision: b === a") := by
  have h := C4_collision (.styleK "color:red") "c1" ["sX"]
    [("sX", ONode.sel "a" "sX" "")] [("sX", 1)] 1 (.sel "b" "sX" "q")
    (.sel "a" "sX" "") 1 (by rfl) (by rfl) (by decide) (by decide)
  rw [h]
  simp only [ONode.getStylesO, ONode.idO, setA]
  rfl

/-- **C4 counterexample**.  The collision error is thrown, but the
reference count of the colliding id has been incremented from 1 to 2 — the
cache is not left in its exact pre-call state. -/
theorem C4_counterexample :
    (ONode.addOld
        (.cache (.styleK "color:red") "c1" ["sX"] [("sX", .sel "a" "sX" "")]
          [("sX", 1)] 1)
        (.sel "b" "sX" "q")).2 = some "Hash collision: b === a" ∧
    (ONode.addOld
        (.cache (.styleK "color:red") "c1" ["sX"] [("sX", .sel "a" "sX" "")]
          [("sX", 1)] 1)
        (.sel "b" "sX" "q")).1.countersO = [("sX", 2)] ∧
    (ONode.cache (.styleK "color:red") "c1" ["sX"] [("sX", .sel "a" "sX" "")]
      [("sX", 1)] 1).countersO = [("sX", 1)] ∧
    ([("sX", 2)] : List (String × Nat)) ≠ [("sX", 1)] := by
  refine ⟨?_, ?_, by rfl, by decide⟩ <;>
  · simp [ONode.addOld, lookupA, setA, ONode.getIdentifierO, ONode.getStylesO,
      ONode.idO, ONode.countersO]

/-- Nested styles object `{color: "red"}` used by the concrete examples. -/
def colorRedObj : SObj := .mk false false none [("color", .val (.str "red"))]

/-- Nested styles object `{color: "blue"}` used by the concrete examples. -/
def colorBlueObj : SObj := .mk false false none [("color", .val (.str "blue"))]

/-- `{"&:b": {color:"red"}, "&:a": {color:"blue"}}` — a non-global styles
object whose nested keys are not in ascending order. -/
def cssNestedBA : SObj := .mk false false none
  [("&:b", .sub colorRedObj), ("&:a", .sub colorBlueObj)]

/-- `cssNestedBA` with its two nested keys swapped. -/
def cssNestedAB : SObj := .mk false false none
  [("&:a", .sub colorBlueObj), ("&:b", .sub colorRedObj)]

/-- `{$global: true, b: {color:"red"}, a: {color:"blue"}}` — a global
styles object whose nested keys are not in ascending order. -/
def cssGlobalBA : SObj := .mk false true none
  [("b", .sub colorRedObj), ("a", .sub colorBlueObj)]

set_option maxRecDepth 200000 in
/-- **C7** (corrected).  `stylize` serializes the nested keys of a level in
their original order whenever a parent selector is in scope (every
non-global level of `registerStyle`, including under at-rules there), and
in ascending lexical order of the raw key text exactly when the effective
parent selector is empty — a `$global`/raw-rule level.  The claim as frozen
states the opposite orientation; `C7_counterexample` refutes it.  Part one:
global registrations are insensitive to key re-ordering (duplicate-free
keys); part two: a global registration serializes out-of-order keys `b`,
`a` sorted; part three: a non-global registration keeps `&:b` before
`&:a`. -/
theorem C7_nested_key_order :
    (∀ (fs : Node) (uid : Nat) (u : Bool) (dn : Option String)
      (es es' : List (String × SProp)), es'.Perm es →
      ((partitionStyles es).1.map Prod.fst).Nodup →
      ((partitionStyles es).2.map Prod.fst).Nodup →
      registerStyle fs uid (.mk u true dn es') = registerStyle fs uid (.mk u true dn es)) ∧
    (registerStyle (create 0).1 (create 0).2 cssGlobalBA).2.1.getStyles =
      "a\x7bcolor:blue\x7db\x7bcolor:red\x7d" ∧
    (registerStyle (create 0).1 (create 0).2 cssNestedBA).2.1.getStyles =
      ".f33gqft:b\x7bcolor:red\x7d.f33gqft:a\x7bcolor:blue\x7d" := by
  refine ⟨fun fs uid u dn es es' h1 h2 h3 => registerStyle_global_perm fs uid h1 h2 h3,
    ?_, ?_⟩
  · exact registerStyle_proj 100 (f := fun r => r.2.1.getStyles) (by decide)
  · exact registerStyle_proj 100 (f := fun r => r.2.1.getStyles) (by decide)

/-- Witness for `C7_nested_key_order`: the global example registered with
its keys in either order produces identical results. -/
theorem C7_nested_key_order_witness :
    registerStyle (create 0).1 (create 0).2
        (.mk false true none [("a", .sub colorBlueObj), ("b", .sub colorRedObj)]) =
      registerStyle (create 0).1 (create 0).2
        (.mk false true none [("b", .sub colorRedObj), ("a", .sub colorBlueObj)]) :=
  C7_nested_key_order.1 (create 0).1 (create 0).2 false none
    [("b", .sub colorRedObj), ("a", .sub colorBlueObj)]
    [("a", .sub colorBlueObj), ("b", .sub colorRedObj)]
    (List.Perm.swap _ _ _) (by decide) (by decide)

set_option maxRecDepth 200000 in
/-- **C7 counterexample**.  In a plain (non-global) registration the nested
keys `&:b`, `&:a` are serialized in original order, not in the ascending
lexical order the claim requires. -/
theorem C7_counterexample :
    (registerStyle (create 0).1 (create 0).2 cssNestedBA).2.1.sheetList =
      [".f33gqft:b\x7bcolor:red\x7d", ".f33gqft:a\x7bcolor:blue\x7d"] ∧
    [".f33gqft:b\x7bcolor:red\x7d", ".f33gqft:a\x7bcolor:blue\x7d"] ≠
      [".f33gqft:a\x7bcolor:blue\x7d", ".f33gqft:b\x7bcolor:red\x7d"] := by
  refine ⟨registerStyle_proj 100 (f := fun r => r.2.1.sheetList) (by decide), by decide⟩

set_option maxRecDepth 200000 in
/-- **C6** (confirmed).  Properties are serialized in ascending lexical
order of their hyphenated names (`sortTuples` sorts by the tuple key, which
`stylize` fills with `hyphenate key`), except that a property holding an
array expands into one declaration per element in the original array order;
concretely, registering `{background: ["red", "linear-gradient(...)"]}`
serializes the two `background` declarations in exactly that order. -/
theorem C6_property_order :
    (∀ ps : List (String × PropVal),
      List.Sorted (· ≤ ·) ((sortTuples ps).map Prod.fst) ∧ (sortTuples ps).Perm ps) ∧
    (∀ (name : String) (vs : List SVal),
      stringifyProperties [(name, .many vs)] =
        String.intercalate ";" (vs.map (styleToString name))) ∧
    (registerStyle (create 0).1 (create 0).2
        (.mk false false none [("background",
          .arr [.str "red", .str "linear-gradient(to right, red 0%, green 100%)"])])
      |>.2.1.getStyles) =
      ".fgsfp2y\x7bbackground:red;background:linear-gradient(to right, red 0%, green 100%)\x7d" := by
  refine ⟨fun ps => ⟨sortTuples_sorted ps, sortTuples_perm ps⟩, ?_, ?_⟩
  · intro name vs
    simp [stringifyProperties, String.intercalate, String.intercalate.go]
  · exact registerStyle_proj 40 (f := fun r => r.2.1.getStyles) (by decide)

/-- Concrete well-formed sheet used to instantiate invariant theorems. -/
def demoSheet : Node :=
  .cache .sheetK "f" ["a"] [("a", .sel ".x" "a")] [("a", 1)] [".x"] 1

/-- The demo sheet satisfies the cache invariant. -/
theorem demoSheet_WF : WF demoSheet :=
  WF.cache rfl rfl (by decide)
    (by intro p hp; rw [List.mem_singleton.mp hp]; rfl)
    (by intro p hp; rw [List.mem_singleton.mp hp]; exact WF.sel ".x" "a")
    (by intro p hp; rw [List.mem_singleton.mp hp])
    rfl

/-- **C10.** Every cache operation (`add`, `remove`, `merge`, `unmerge`)
preserves the well-formedness invariant `WF`, which in particular makes the
incremental `sheet` array pointwise consistent with the stored nodes:
`sheet` has the same length as `_keys` and `sheet[j]` is the `getStyles()`
text of the child stored at `_keys[j]` for every index `j`; consequently
`FreeStyle.getStyles()` equals the concatenation of
`values().map(getStyles)` in storage order. -/
theorem C10_sheet_invariant :
    (∀ c s : Node, WF c → WF (c.add s)) ∧
    (∀ c s : Node, WF c → WF (c.remove s)) ∧
    (∀ c o : Node, WF c → WF (c.merge o)) ∧
    (∀ c o : Node, WF c → WF (c.unmerge o)) ∧
    (∀ c : Node, WF c → c.sheetList.length = c.keyList.length ∧
      (∀ j : Nat, c.sheetList[j]? =
        (c.keyList[j]?.bind (lookupA c.childrenList)).map Node.getStyles)) ∧
    (∀ (i : String) (keys : List String) (ch : List (String × Node))
        (cnt : List (String × Nat)) (sh : List String) (cid : Nat),
      WF (.cache .sheetK i keys ch cnt sh cid) →
      (Node.cache .sheetK i keys ch cnt sh cid).getStyles =
        joinList ((Node.cache .sheetK i keys ch cnt sh cid).valuesN.map
          Node.getStyles)) := by
  refine ⟨fun _ s hc => add_WF s hc, fun _ s hc => remove_WF s hc,
    fun _ o hc => merge_WF o hc, fun _ o hc => unmerge_WF o hc,
    fun _ hc => ⟨sheet_length_eq hc, sheet_pointwise hc⟩,
    fun i keys ch cnt sh cid hc => ?_⟩
  show joinList ((Node.cache .sheetK i keys ch cnt sh cid).sheetList) = _
  rw [sheet_eq_values hc]

/-- Closed instantiation of `C10_sheet_invariant` on a concrete sheet. -/
theorem C10_sheet_invariant_witness :
    WF demoSheet ∧ WF (demoSheet.add (.sel ".y" "b")) ∧
    demoSheet.sheetList.length = demoSheet.keyList.length ∧
    demoSheet.sheetList[0]? =
      (demoSheet.keyList[0]?.bind (lookupA demoSheet.childrenList)).map
        Node.getStyles ∧
    (Node.cache .sheetK "f" ["a"] [("a", .sel ".x" "a")] [("a", 1)]
        [".x"] 1).getStyles =
      joinList ((Node.cache .sheetK "f" ["a"] [("a", .sel ".x" "a")]
        [("a", 1)] [".x"] 1).valuesN.map Node.getStyles) :=
  ⟨demoSheet_WF,
   C10_sheet_invariant.1 demoSheet (.sel ".y" "b") demoSheet_WF,
   (C10_sheet_invariant.2.2.2.2.1 demoSheet demoSheet_WF).1,
   (C10_sheet_invariant.2.2.2.2.1 demoSheet demoSheet_WF).2 0,
   C10_sheet_invariant.2.2.2.2.2 "f" ["a"] [("a", .sel ".x" "a")]
     [("a", 1)] [".x"] 1 demoSheet_WF⟩

/-- **C3.** For stylesheets `A` and `B` (well-formed caches) whose stored
top-level identifiers are disjoint, `A.merge(B)` followed by
`A.unmerge(B)` restores `A.getStyles()` to exactly its pre-merge value; in
fact the key array, children, counters and sheet are all restored exactly
(only `changeId` has advanced). -/
theorem C3_merge_unmerge (A B : Node) (hA : WF A) (hB : WF B)
    (hdisj : ∀ s ∈ B.keyList, s ∉ A.keyList) :
    ((A.merge B).unmerge B).getStyles = A.getStyles ∧
    ((A.merge B).unmerge B).keyList = A.keyList ∧
    ((A.merge B).unmerge B).childrenList = A.childrenList ∧
    ((A.merge B).unmerge B).countersList = A.countersList ∧
    ((A.merge B).unmerge B).sheetList = A.sheetList := by
  cases hA with
  | sel cs ci =>
    simp [Node.merge, Node.unmerge, mergeChildren_sel, unmergeChildren_sel]
  | cache hkeys hcnt hnd hid hwf hpos hsh =>
    rename_i k i keys ch cnt sh cid
    cases hB with
    | sel bs bi =>
      have h1 : ((Node.cache k i keys ch cnt sh cid).merge
          (Node.sel bs bi)).unmerge (Node.sel bs bi) =
          Node.cache k i keys ch cnt sh cid := by
        show Node.unmergeChildren (Node.mergeChildren _ []) [] = _
        rw [Node.mergeChildren, Node.unmergeChildren]
      rw [h1]
      exact ⟨rfl, rfl, rfl, rfl, rfl⟩
    | cache hkeysB hcntB hndB hidB hwfB hposB hshB =>
      rename_i kB iB keysB chB cntB shB cidB
      have hfreshk : ∀ b ∈ chB.map Prod.fst, b ∉ keys := by
        intro b hb
        have h1 : b ∈ keysB := by rw [← hkeysB]; exact hb
        exact hdisj b h1
      have hMfresh : ∀ b ∈ chB.map Prod.fst,
          b ∉ ch.map Prod.fst ∧ b ∉ cnt.map Prod.fst := by
        intro b hb
        exact ⟨by rw [hkeys]; exact hfreshk b hb,
          by rw [hcnt]; exact hfreshk b hb⟩
      have hndB2 : (chB.map Prod.fst).Nodup := by rw [hkeysB]; exact hndB
      have hM := mergeChildren_fresh chB k i keys ch cnt sh cid hMfresh
        hndB2 hidB
      have helf : (chB.map fun p => (p.1, Node.cloneN p.2)).map Prod.fst =
          chB.map Prod.fst := by simp
      have hidel : ∀ p ∈ chB.map fun p => (p.1, Node.cloneN p.2),
          Node.id p.2 = p.1 := by
        intro p hp
        obtain ⟨q, hq, hqe⟩ := List.mem_map.mp hp
        subst hqe
        show (Node.cloneN q.2).id = q.1
        rw [cloneN_id]
        exact hidB q hq
      have hfr2 : ∀ b ∈ (chB.map fun p => (p.1, Node.cloneN p.2)).map Prod.fst,
          b ∉ keys ∧ b ∉ ch.map Prod.fst ∧ b ∉ cnt.map Prod.fst := by
        intro b hb
        rw [helf] at hb
        exact ⟨hfreshk b hb, (hMfresh b hb).1, (hMfresh b hb).2⟩
      have hshlen : sh.length = keys.length := by
        rw [hsh, ← hkeys]
        simp
      have hU := unmergeChildren_fresh chB
        (chB.map fun p => (p.1, Node.cloneN p.2))
        (chB.map fun p => (Node.cloneN p.2).getStyles) k i keys ch cnt sh
        (cid + chB.length) helf.symm hidB hidel (by rw [helf]; exact hndB2)
        hfr2 (by simp) hshlen
      have halignk : keys ++ chB.map Prod.fst =
          keys ++ (chB.map fun p => (p.1, Node.cloneN p.2)).map Prod.fst := by
        rw [helf]
      have haligned : (cnt ++ chB.map fun p => (p.1, 1)) =
          cnt ++ (chB.map fun p => (p.1, Node.cloneN p.2)).map
            fun p => (p.1, 1) := by
        rw [List.map_map]
        rfl
      have hfinal : ((Node.cache k i keys ch cnt sh cid).merge
          (Node.cache kB iB keysB chB cntB shB cidB)).unmerge
          (Node.cache kB iB keysB chB cntB shB cidB) =
          Node.cache k i keys ch cnt sh (cid + chB.length + chB.length) := by
        show Node.unmergeChildren
          (Node.mergeChildren (Node.cache k i keys ch cnt sh cid) chB) chB = _
        rw [hM, halignk, haligned, hU]
      rw [hfinal]
      exact ⟨by cases k <;> rfl, rfl, rfl, rfl, rfl⟩

/-- Concrete well-formed sheet `A` for the merge/unmerge round trip. -/
def demoA : Node :=
  .cache .sheetK "fA" ["a"] [("a", .sel ".a" "a")] [("a", 1)] [".a"] 1

/-- Concrete well-formed sheet `B` with an id disjoint from `demoA`. -/
def demoB : Node :=
  .cache .sheetK "fB" ["b"] [("b", .sel ".b" "b")] [("b", 1)] [".b"] 1

/-- `demoA` satisfies the cache invariant. -/
theorem demoA_WF : WF demoA :=
  WF.cache rfl rfl (by decide)
    (by intro p hp; rw [List.mem_singleton.mp hp]; rfl)
    (by intro p hp; rw [List.mem_singleton.mp hp]; exact WF.sel ".a" "a")
    (by intro p hp; rw [List.mem_singleton.mp hp])
    rfl

/-- `demoB` satisfies the cache invariant. -/
theorem demoB_WF : WF demoB :=
  WF.cache rfl rfl (by decide)
    (by intro p hp; rw [List.mem_singleton.mp hp]; rfl)
    (by intro p hp; rw [List.mem_singleton.mp hp]; exact WF.sel ".b" "b")
    (by intro p hp; rw [List.mem_singleton.mp hp])
    rfl

/-- Closed instantiation of `C3_merge_unmerge` on concrete disjoint
sheets. -/
theorem C3_merge_unmerge_witness :
    WF demoA ∧ WF demoB ∧ (∀ s ∈ demoB.keyList, s ∉ demoA.keyList) ∧
    ((demoA.merge demoB).unmerge demoB).getStyles = demoA.getStyles ∧
    ((demoA.merge demoB).unmerge demoB).sheetList = demoA.sheetList := by
  have hd : ∀ s ∈ demoB.keyList, s ∉ demoA.keyList := by decide
  exact ⟨demoA_WF, demoB_WF, hd,
    (C3_merge_unmerge demoA demoB demoA_WF demoB_WF hd).1,
    (C3_merge_unmerge demoA demoB demoA_WF demoB_WF hd).2.2.2.2⟩

/-- **C9 (amended).** `clone()` of a well-formed cache returns a
structurally fresh cache with the same rendered content — equal
`getStyles()` text — but with the *same* identifier as the original
(`new FreeStyle(this.id, this.changes).merge(this)` passes `this.id`); no
fresh instance identifier is generated. -/
theorem C9_clone (c : Node) (hc : WF c) :
    c.cloneN.getStyles = c.getStyles ∧ c.cloneN.id = c.id :=
  ⟨cloneN_getStyles hc, cloneN_id c⟩

/-- Concrete well-formed style container for the clone claims. -/
def demoClone : Node :=
  .cache (.styleK "color:red") "sX" ["a"] [("a", .sel ".a" "a")]
    [("a", 1)] [".a"] 3

/-- `demoClone` satisfies the cache invariant. -/
theorem demoClone_WF : WF demoClone :=
  WF.cache rfl rfl (by decide)
    (by intro p hp; rw [List.mem_singleton.mp hp]; rfl)
    (by intro p hp; rw [List.mem_singleton.mp hp]; exact WF.sel ".a" "a")
    (by intro p hp; rw [List.mem_singleton.mp hp])
    rfl

/-- Closed instantiation of `C9_clone` on a concrete container. -/
theorem C9_clone_witness :
    WF demoClone ∧ demoClone.cloneN.getStyles = demoClone.getStyles ∧
      demoClone.cloneN.id = demoClone.id :=
  ⟨demoClone_WF, (C9_clone demoClone demoClone_WF).1,
    (C9_clone demoClone demoClone_WF).2⟩

/-- The original C9 text claims the clone "carries a fresh instance
identifier distinct from the original sheet's id"; in fact `clone()`
passes `this.id` through, so the clone's id equals the original's. -/
theorem C9_counterexample :
    demoClone.cloneN.id = demoClone.id ∧ demoClone.id = "sX" :=
  ⟨cloneN_id demoClone, rfl⟩

/-- **C2.** On a well-formed cache: every stored key has reference count
at least 1; after adding the same node twice and removing it once, the
content is still stored (its key is in `_keys`, its child — keyed by its
own id — is in `values()`, and its count is back to 1); the remove call
that takes the count from 1 to 0 deletes the entry, after which the key
array, children, counters and sheet are restored exactly to their pre-add
values, so the content no longer appears in `getStyles()`. -/
theorem C2_refcount (c s : Node) (hc : WF c) (hcache : c.isCache = true)
    (hfresh : s.id ∉ c.keyList) :
    (∀ b ∈ c.keyList, ∃ n, lookupA c.countersList b = some n ∧ 1 ≤ n) ∧
    s.id ∈ (((c.add s).add s).remove s).keyList ∧
    (∃ item, lookupA (((c.add s).add s).remove s).childrenList s.id =
      some item ∧ item.id = s.id) ∧
    lookupA (((c.add s).add s).remove s).countersList s.id = some 1 ∧
    s.id ∉ ((((c.add s).add s).remove s).remove s).keyList ∧
    ((((c.add s).add s).remove s).remove s).keyList = c.keyList ∧
    ((((c.add s).add s).remove s).remove s).childrenList = c.childrenList ∧
    ((((c.add s).add s).remove s).remove s).countersList = c.countersList ∧
    ((((c.add s).add s).remove s).remove s).sheetList = c.sheetList ∧
    ((((c.add s).add s).remove s).remove s).getStyles = c.getStyles := by
  refine ⟨stored_count_pos hc, ?_⟩
  cases hc with
  | sel cs ci => simp [Node.isCache] at hcache
  | cache hkeys hcnt hnd hid hwf hpos hsh =>
    rename_i k i keys ch cnt sh cid
    have hbk : s.id ∉ keys := hfresh
    have hbch : s.id ∉ ch.map Prod.fst := by rw [hkeys]; exact hbk
    have hbcnt : s.id ∉ cnt.map Prod.fst := by rw [hcnt]; exact hbk
    have hshlen : sh.length = keys.length := by
      rw [hsh, ← hkeys]
      simp
    have h1 : (Node.cache k i keys ch cnt sh cid).add s =
        .cache k i (keys ++ [s.id]) (ch ++ [(s.id, s.cloneN)])
          (cnt ++ [(s.id, 1)]) (sh ++ [s.cloneN.getStyles]) (cid + 1) :=
      add_fresh s hbch hbcnt
    have h2 : ∃ v' y' cid',
        (Node.cache k i (keys ++ [s.id]) (ch ++ [(s.id, s.cloneN)])
          (cnt ++ [(s.id, 1)]) (sh ++ [s.cloneN.getStyles]) (cid + 1)).add s =
        .cache k i (keys ++ [s.id]) (ch ++ [(s.id, v')])
          (cnt ++ [(s.id, 1 + 1)]) (sh ++ [y']) cid' ∧
        Node.id v' = s.cloneN.id :=
      add_tail_shape s rfl hbk hbch hbcnt hshlen (by omega)
    obtain ⟨v2, y2, cid2, h2eq, h2id⟩ := h2
    have hv2id : v2.id = s.id := by rw [h2id, cloneN_id]
    have h3 : ∃ v' y' cid',
        (Node.cache k i (keys ++ [s.id]) (ch ++ [(s.id, v2)])
          (cnt ++ [(s.id, 1 + 1)]) (sh ++ [y2]) cid2).remove s =
        .cache k i (keys ++ [s.id]) (ch ++ [(s.id, v')])
          (cnt ++ [(s.id, 1 + 1 - 1)]) (sh ++ [y']) cid' ∧
        Node.id v' = v2.id :=
      remove_tail_shape s rfl hbk hbch hbcnt hshlen (by omega) (by omega) hv2id
    obtain ⟨v3, y3, cid3, h3eq, h3id⟩ := h3
    have hv3id : v3.id = s.id := by rw [h3id, hv2id]
    have h4 : (Node.cache k i (keys ++ [s.id]) (ch ++ [(s.id, v3)])
        (cnt ++ [(s.id, 1 + 1 - 1)]) (sh ++ [y3]) cid3).remove s =
        .cache k i keys ch cnt sh (cid3 + 1) :=
      remove_tail_last s rfl hbk hbch hbcnt hshlen hv3id
    rw [h1, h2eq, h3eq, h4]
    refine ⟨by simp [Node.keyList], ⟨v3, ?_, hv3id⟩, ?_, hbk, rfl, rfl, rfl, rfl,
      by cases k <;> rfl⟩
    · show lookupA (ch ++ [(s.id, v3)]) s.id = some v3
      rw [lookupA_append_of_notMem _ hbch]
      simp [lookupA]
    · show lookupA (cnt ++ [(s.id, 1 + 1 - 1)]) s.id = some 1
      rw [lookupA_append_of_notMem _ hbcnt]
      simp [lookupA]

/-- Concrete empty sheet for the reference-count round trip. -/
def demoR : Node := .cache .sheetK "fR" [] [] [] [] 0

/-- `demoR` satisfies the cache invariant. -/
theorem demoR_WF : WF demoR := WF_empty .sheetK "fR" 0

/-- Closed instantiation of `C2_refcount` on a concrete sheet and
selector. -/
theorem C2_refcount_witness :
    WF demoR ∧ demoR.isCache = true ∧
    (Node.sel ".s" "s").id ∉ demoR.keyList ∧
    (Node.sel ".s" "s").id ∈
      (((demoR.add (.sel ".s" "s")).add (.sel ".s" "s")).remove
        (.sel ".s" "s")).keyList ∧
    ((((demoR.add (.sel ".s" "s")).add (.sel ".s" "s")).remove
        (.sel ".s" "s")).remove (.sel ".s" "s")).getStyles =
      demoR.getStyles := by
  have hf : (Node.sel ".s" "s").id ∉ demoR.keyList := by simp [demoR, Node.keyList, Node.id]
  exact ⟨demoR_WF, rfl, hf,
    (C2_refcount demoR (.sel ".s" "s") demoR_WF rfl hf).2.1,
    (C2_refcount demoR (.sel ".s" "s") demoR_WF rfl
      hf).2.2.2.2.2.2.2.2.2⟩

/-- Transport projected facts about two chained certified `registerStyleO`
runs to two chained `registerStyle` calls. -/
theorem registerStyle2_proj {β : Type} (fuel : Nat) {fs : Node} {uid : Nat}
    {css css' : SObj} {f : String × Node × Nat → β} {v : β}
    (h : ((registerStyleO fuel fs uid css).bind fun r =>
      registerStyleO fuel r.2.1 r.2.2 css').map f = some v) :
    f (registerStyle (registerStyle fs uid css).2.1
      (registerStyle fs uid css).2.2 css') = v := by
  obtain ⟨r2, hr2, hv⟩ := Option.map_eq_some'.mp h
  obtain ⟨r1, hr1, hr2b⟩ := Option.bind_eq_some.mp hr2
  rw [registerStyleO_sound hr1, registerStyleO_sound hr2b]
  exact hv

/-- `{ color: "red", $unique: true }`. -/
def uniqueObj : SObj := .mk true false none [("color", .val (.str "red"))]

set_option maxRecDepth 400000 in
/-- **C5 (amended).** Registering a `$unique`-tagged style twice never
merges the two results: the sheet stores two separate `Style` entries whose
internal identifiers incorporate the incremented global counter
(`s:2:color:red` vs `s:3:color:red`), and the rendered rule appears twice
in `getStyles()`; both registrations, however, return the *same* externally
visible class name (the content hash does not involve the counter). -/
theorem C5_unique :
    (registerStyle (create 0).1 (create 0).2 uniqueObj).1 = "fzedf1f" ∧
    (registerStyle (registerStyle (create 0).1 (create 0).2 uniqueObj).2.1
      (registerStyle (create 0).1 (create 0).2 uniqueObj).2.2 uniqueObj).1 =
      "fzedf1f" ∧
    (registerStyle (registerStyle (create 0).1 (create 0).2 uniqueObj).2.1
      (registerStyle (create 0).1 (create 0).2 uniqueObj).2.2
      uniqueObj).2.1.keyList = ["s:2:color:red", "s:3:color:red"] ∧
    "s:2:color:red" ≠ "s:3:color:red" ∧
    (registerStyle (registerStyle (create 0).1 (create 0).2 uniqueObj).2.1
      (registerStyle (create 0).1 (create 0).2 uniqueObj).2.2
      uniqueObj).2.1.getStyles =
      ".fzedf1f\x7bcolor:red\x7d" ++ ".fzedf1f\x7bcolor:red\x7d" := by
  refine ⟨?_, ?_, ?_, by decide, ?_⟩
  · exact registerStyle_proj 100 (f := fun r => r.1) (by decide)
  · exact registerStyle2_proj 100 (f := fun r => r.1) (by decide)
  · exact registerStyle2_proj 100 (f := fun r => r.2.1.keyList) (by decide)
  · exact registerStyle2_proj 100 (f := fun r => r.2.1.getStyles) (by decide)

set_option maxRecDepth 400000 in
/-- The original C5 text says the two registrations "carry distinct
identifiers"; in fact both calls return the same class name, because the
hashed pid does not include the unique counter. -/
theorem C5_counterexample :
    (registerStyle (registerStyle (create 0).1 (create 0).2 uniqueObj).2.1
      (registerStyle (create 0).1 (create 0).2 uniqueObj).2.2 uniqueObj).1 =
    (registerStyle (create 0).1 (create 0).2 uniqueObj).1 := by
  have h1 : (registerStyle (create 0).1 (create 0).2 uniqueObj).1 =
      "fzedf1f" :=
    registerStyle_proj 100 (f := fun r => r.1) (by decide)
  have h2 : (registerStyle (registerStyle (create 0).1 (create 0).2
      uniqueObj).2.1 (registerStyle (create 0).1 (create 0).2
      uniqueObj).2.2 uniqueObj).1 = "fzedf1f" :=
    registerStyle2_proj 100 (f := fun r => r.1) (by decide)
  rw [h1, h2]

set_option maxRecDepth 400000 in
/-- **C1 (amended).** The returned class name depends only on the styles
object, never on the sheet state or the counter, so every registration of
the same object returns the same name; property-key re-ordering at a level
with no nested styles, and any top-level key re-ordering of a `$global`
object, preserve the whole result; and re-registering an identical
non-`$unique` object leaves the sheet unchanged, so the rendered rule text
appears exactly once (shown on a concrete registration).  Re-ordering
*nested* selector keys of a class registration, however, changes the name
(see the counterexample), and `$unique` objects duplicate their text (C5).
-/
theorem C1_idempotent_dedup :
    (∀ (fs fs' : Node) (uid uid' : Nat) (css : SObj),
      (registerStyle fs uid css).1 = (registerStyle fs' uid' css).1) ∧
    (∀ (fs : Node) (uid : Nat) (u g : Bool) (dn : Option String)
        (es es' : List (String × SProp)), es'.Perm es →
      ((partitionStyles es).1.map Prod.fst).Nodup →
      (partitionStyles es).2 = [] →
      registerStyle fs uid (.mk u g dn es') =
        registerStyle fs uid (.mk u g dn es)) ∧
    (∀ (fs : Node) (uid : Nat) (u : Bool) (dn : Option String)
        (es es' : List (String × SProp)), es'.Perm es →
      ((partitionStyles es).1.map Prod.fst).Nodup →
      ((partitionStyles es).2.map Prod.fst).Nodup →
      registerStyle fs uid (.mk u true dn es') =
        registerStyle fs uid (.mk u true dn es)) ∧
    (registerStyle (create 0).1 (create 0).2 colorRedObj).1 = "fzedf1f" ∧
    (registerStyle (create 0).1 (create 0).2 colorRedObj).2.1.sheetList =
      [".fzedf1f\x7bcolor:red\x7d"] ∧
    (registerStyle (registerStyle (create 0).1 (create 0).2 colorRedObj).2.1
      (registerStyle (create 0).1 (create 0).2 colorRedObj).2.2
      colorRedObj).1 = "fzedf1f" ∧
    (registerStyle (registerStyle (create 0).1 (create 0).2 colorRedObj).2.1
      (registerStyle (create 0).1 (create 0).2 colorRedObj).2.2
      colorRedObj).2.1.sheetList = [".fzedf1f\x7bcolor:red\x7d"] := by
  refine ⟨?_, ?_, ?_, ?_, ?_, ?_, ?_⟩
  · intro fs fs' uid uid' css
    rfl
  · intro fs uid u g dn es es' hperm hndp hnon
    exact registerStyle_props_perm fs uid hperm hndp hnon
  · intro fs uid u dn es es' hperm hndp hndn
    exact registerStyle_global_perm fs uid hperm hndp hndn
  · exact registerStyle_proj 100 (f := fun r => r.1) (by decide)
  · exact registerStyle_proj 100 (f := fun r => r.2.1.sheetList) (by decide)
  · exact registerStyle2_proj 100 (f := fun r => r.1) (by decide)
  · exact registerStyle2_proj 100 (f := fun r => r.2.1.sheetList) (by decide)

/-- `{ background: "blue", color: "red" }`. -/
def colorBgObjA : SObj := .mk false false none
  [("background", .val (.str "blue")), ("color", .val (.str "red"))]

/-- `colorBgObjA` with its two property keys swapped. -/
def colorBgObjB : SObj := .mk false false none
  [("color", .val (.str "red")), ("background", .val (.str "blue"))]

/-- Closed instantiation of `C1_idempotent_dedup`: name stability across
sheets, a concrete property-key swap, and a global re-registration. -/
theorem C1_idempotent_dedup_witness :
    (registerStyle demoA 7 colorRedObj).1 =
      (registerStyle demoB 3 colorRedObj).1 ∧
    colorBgObjB.entries.Perm colorBgObjA.entries ∧
    ((partitionStyles colorBgObjA.entries).1.map Prod.fst).Nodup ∧
    (partitionStyles colorBgObjA.entries).2 = [] ∧
    registerStyle (create 0).1 (create 0).2 colorBgObjB =
      registerStyle (create 0).1 (create 0).2 colorBgObjA ∧
    cssGlobalBA.entries.Perm cssGlobalBA.entries ∧
    registerStyle (create 0).1 (create 0).2 cssGlobalBA =
      registerStyle (create 0).1 (create 0).2 cssGlobalBA := by
  have hperm : colorBgObjB.entries.Perm colorBgObjA.entries :=
    List.Perm.swap _ _ []
  refine ⟨C1_idempotent_dedup.1 demoA demoB 7 3 colorRedObj,
    hperm, by decide, rfl,
    C1_idempotent_dedup.2.1 (create 0).1 (create 0).2 false false none
      colorBgObjA.entries colorBgObjB.entries hperm (by decide) rfl,
    List.Perm.refl _,
    C1_idempotent_dedup.2.2.1 (create 0).1 (create 0).2 false none
      cssGlobalBA.entries cssGlobalBA.entries (List.Perm.refl _)
      (by decide) (by decide)⟩

set_option maxRecDepth 400000 in
/-- The original C1 text promises the same class name for *any*
re-ordering of keys denoting the same nesting; swapping the two nested
selector keys of a class registration changes the generated name. -/
theorem C1_counterexample :
    cssNestedAB.entries.Perm cssNestedBA.entries ∧
    (registerStyle (create 0).1 (create 0).2 cssNestedBA).1 = "f33gqft" ∧
    (registerStyle (create 0).1 (create 0).2 cssNestedAB).1 = "f1f4gdi1" ∧
    "f33gqft" ≠ "f1f4gdi1" := by
  refine ⟨List.Perm.swap _ _ [], ?_, ?_, by decide⟩
  · exact registerStyle_proj 100 (f := fun r => r.1) (by decide)
  · exact registerStyle_proj 100 (f := fun r => r.1) (by decide)

end FS
